import Mathlib

/-!
# Verification of the ENS governance sharded Merkle airdrop

Shallow embedding of the repository's sharded-Merkle airdrop core:

* `ShardedMerkleTree` (off-chain JS builder/prover, bundled in
  `src/contracts/ENSGovernorV2.sol`): `build`, `getProof`, `fromFiles`;
* the merkletreejs trees it constructs with `{sort: true}` (sorted leaves,
  sorted pairs, odd node promoted);
* the on-chain claim state machine (`MerkleAirdrop.claimTokens`,
  `setMerkleRoot`, `isClaimed` from `src/unnamed/part_009`, mirrored by
  `ENSToken.claimTokens`);
* the positional index fold `getIndex` from `src/test/merkleairdrop.js`.

Keccak-256 is an uninterpreted primitive: every definition is parametric in a
pair-hash `H : Nat → Nat → Nat` (hash of the concatenation of two 32-byte
words) and a leaf hash `LH : Addr → Nat → Nat` (hash of `address ‖ balance`).
32-byte words are modelled as `Nat`; the byte-wise comparisons used by
merkletreejs (`Buffer.compare`) and Solidity (`<=` on `bytes32`) coincide with
numeric comparison of big-endian values, hence with `≤` on `Nat`.
-/

namespace EnsAirdrop

section Definitions

variable (H : Nat → Nat → Nat) (LH : Addr → Nat → Nat)

/-- An account address: the hex characters after the `0x` of the JS string. -/
abbrev Addr := List Char

/-- One claimable allocation, as stored in shard files (`{balance: ...}`). -/
structure Entry where
  balance : Nat

deriving DecidableEq, Repr

/-- Hash of a pair of nodes combined in ascending order: merkletreejs
`sortPairs` (sort the two buffers, concatenate, keccak256), identical to the
verifier's `computedHash <= proofElement` branch in
`src/test/merkleairdrop.js` `getIndex`. -/
def hashSortedPair (a b : Nat) : Nat :=
  if a ≤ b then H a b else H b a

/-- One level of merkletreejs' bottom-up construction: combine adjacent pairs
with `hashSortedPair`; an unpaired last node is promoted unchanged
(`duplicateOdd` is off by default). -/
def nextLevel : List Nat → List Nat
  | [] => []
  | [a] => [a]
  | a :: b :: rest => hashSortedPair H a b :: nextLevel rest

/-- Level iteration of merkletreejs `getRoot`, with an explicit fuel so the
recursion is structural (and hence computable by kernel reduction); any fuel
at least the leaf count suffices, see `rootOfAux_congr`. -/
def rootOfAux : Nat → List Nat → Nat
  | _, [] => 0
  | _, [a] => a
  | 0, a :: _ :: _ => a
  | fuel + 1, a :: b :: rest => rootOfAux fuel (nextLevel H (a :: b :: rest))

/-- merkletreejs `getRoot` on an already-processed leaf level: fold levels
until a single node remains (`0` stands for the empty tree's empty buffer). -/
def rootOf (l : List Nat) : Nat :=
  rootOfAux H l.length l

/-- Sibling collection of merkletreejs `getProof`, with an explicit fuel so
the recursion is structural; any fuel at least the leaf count suffices. -/
def proofOfAux : Nat → List Nat → Nat → List Nat
  | _, [], _ => []
  | _, [_], _ => []
  | 0, _ :: _ :: _, _ => []
  | fuel + 1, a :: b :: rest, i =>
    (if (if i % 2 = 1 then i - 1 else i + 1) < (a :: b :: rest).length
     then [(a :: b :: rest).getD (if i % 2 = 1 then i - 1 else i + 1) 0]
     else []) ++ proofOfAux fuel (nextLevel H (a :: b :: rest)) (i / 2)

/-- merkletreejs `getProof` for the node at position `i` of the processed leaf
level: at each layer take the pair sibling (`i-1` for odd `i`, `i+1` for even)
when it exists, then continue at position `i / 2` one level up. -/
def proofOf (l : List Nat) (i : Nat) : List Nat :=
  proofOfAux H l.length l i

/-- The verifier's hash accumulator: fold the proof elements onto the leaf
with the sorted-pair rule. -/
def hashFold (leaf : Nat) (proof : List Nat) : Nat :=
  proof.foldl (hashSortedPair H) leaf

/-- The simultaneous hash/index fold of `getIndex`
(`src/test/merkleairdrop.js` lines 20-38): at each proof element the index
doubles (`index *= 2`), then gains 1 exactly in the `else` branch, i.e. when
the element sorts strictly before the accumulator; the accumulator becomes
the keccak of the two values concatenated in ascending order. -/
def indexFoldA (acc idx : Nat) : List Nat → Nat
  | [] => idx
  | e :: rest =>
    indexFoldA (hashSortedPair H acc e) (2 * idx + if acc ≤ e then 0 else 1) rest

/-- `getIndex(address, balance, proof)` from `src/test/merkleairdrop.js`:
run the fold from the leaf hash of `(address, balance)` with index 0. -/
def getIndex (LH : Addr → Nat → Nat) (address : Addr) (balance : Nat)
    (proof : List Nat) : Nat :=
  indexFoldA H (LH address balance) 0 proof

/-- merkletreejs leaf preprocessing under `{sort: true}` (`sortLeaves`): the
leaf level is the input leaves sorted ascending. -/
def sortLvs (l : List Nat) : List Nat :=
  l.insertionSort (· ≤ ·)

/-- `new MerkleTree(leaves, keccak256, {sort: true}).getRoot()`. -/
def mtRoot (leaves : List Nat) : Nat :=
  rootOf H (sortLvs leaves)

/-- `tree.getProof(x)`: locate `x` in the processed (sorted) leaf level and
collect the sibling path. -/
def mtProofFor (leaves : List Nat) (x : Nat) : List Nat :=
  proofOf H (sortLvs leaves) ((sortLvs leaves).indexOf x)

/-- `address.slice(2, 2 + shardNybbles).toLowerCase()`: the shard key of an
address (our `Addr` already omits the leading `0x`). -/
def shardIdOf (shardNybbles : Nat) (a : Addr) : List Char :=
  (a.take shardNybbles).map Char.toLower

/-- JS object assignment `obj[k] = v` on a string-keyed object: overwrite in
place when the key exists, else append the new key at the end (JS insertion
order for non-numeric keys). -/
def objAssign (l : List (Addr × Entry)) (a : Addr) (e : Entry) :
    List (Addr × Entry) :=
  if l.any (fun p => decide (p.1 = a)) then
    l.map (fun p => if p.1 = a then (a, e) else p)
  else l ++ [(a, e)]

/-- `Object.fromEntries(pairs)`: assign every pair left to right into a fresh
object. A later pair with a duplicate key overwrites the earlier value. -/
def fromEntries (l : List (Addr × Entry)) : List (Addr × Entry) :=
  l.foldl (fun acc p => objAssign acc p.1 p.2) []

/-- One step of the builder's bucketing loop: `shards[shard].push([address,
entry])`, creating the bucket on first use. -/
def pushBucket (bs : List (List Char × List (Addr × Entry))) (k : List Char)
    (p : Addr × Entry) : List (List Char × List (Addr × Entry)) :=
  if bs.any (fun b => decide (b.1 = k)) then
    bs.map (fun b => if b.1 = k then (b.1, b.2 ++ [p]) else b)
  else bs ++ [(k, [p])]

/-- The bucketing loop of `ShardedMerkleTree.build` over the entry list. -/
def buildShards (shardNybbles : Nat) (entries : List (Addr × Entry)) :
    List (List Char × List (Addr × Entry)) :=
  entries.foldl (fun bs p => pushBucket bs (shardIdOf shardNybbles p.1) p) []

/-- Fuel-indexed first-occurrence deduplication (structural, so kernel
reduction can evaluate it); any fuel at least the list length suffices. -/
def firstDedupAux : Nat → List (List Char) → List (List Char)
  | _, [] => []
  | 0, l => l
  | fuel + 1, k :: t => k :: firstDedupAux fuel (t.filter (fun x => decide (x ≠ k)))

/-- First-occurrence deduplication: the key order of a JS object built by
repeated assignment. -/
def firstDedup (l : List (List Char)) : List (List Char) :=
  firstDedupAux l.length l

/-- The shard keys of an entry list, in first-occurrence order. -/
def shardKeys (n : Nat) (entries : List (Addr × Entry)) : List (List Char) :=
  firstDedup (entries.map (fun p => shardIdOf n p.1))

/-- The bucket of a shard key: the entries whose address has that key, in
input order. -/
def bucket (n : Nat) (entries : List (Addr × Entry)) (k : List Char) :
    List (Addr × Entry) :=
  entries.filter (fun p => decide (shardIdOf n p.1 = k))

/-- The canonical shape of the builder's shards object: keys in
first-occurrence order, each mapped to its bucket. -/
def canonShards (n : Nat) (entries : List (Addr × Entry)) :
    List (List Char × List (Addr × Entry)) :=
  (shardKeys n entries).map (fun k => (k, bucket n entries k))

/-- JS property access `obj[key]` on a string-keyed object, modelled on the
object's insertion-ordered pair list (an object never holds a duplicate key;
on lists that could, the first pair wins, as everywhere below keys are either
unique or deliberately deduplicated first). -/
def alookup {β : Type} (a : Addr) : List (Addr × β) → Option β
  | [] => none
  | (k, v) :: t => if k = a then some v else alookup a t

/-- Shard-key variant of `alookup` (same JS property access, key = shard id). -/
def klookup {β : Type} (k : List Char) : List (List Char × β) → Option β
  | [] => none
  | (k0, v) :: t => if k0 = k then some v else klookup k t

/-- `hashLeaf([address, entry])` = keccak256 of `address ‖ entry.balance`. -/
def leafEntryHash (p : Addr × Entry) : Nat :=
  LH p.1 p.2.balance

/-- The persisted manifest `root.json`. -/
structure Manifest where
  root : Nat
  shardNybbles : Nat
  total : Nat

deriving DecidableEq, Repr

/-- One persisted shard file `<shard>.json`: this shard's precomputed
root-tree proof path plus its address → entry object (in serialization
order — structural equality of this record is byte-identity of the JSON). -/
structure ShardFile where
  proof : List Nat
  entries : List (Addr × Entry)

deriving DecidableEq, Repr

/-- `ShardedMerkleTree.build(entries, shardNybbles, directory)`: bucket every
entry by shard key, build one sorted-pair tree per shard, build the root tree
over the shard roots, and persist the manifest plus one file per shard
(`Object.fromEntries(entries)` and the shard's root-tree proof). The result
pair is (manifest, shard files keyed by shard id, in insertion order). -/
def build (n : Nat) (entries : List (Addr × Entry)) :
    Manifest × List (List Char × ShardFile) :=
  let shards := buildShards n entries
  let rootLeaves := shards.map (fun s => mtRoot H (s.2.map (leafEntryHash LH)))
  (⟨mtRoot H rootLeaves, n, (entries.map (fun p => p.2.balance)).sum⟩,
   shards.map (fun s =>
     (s.1, ⟨mtProofFor H rootLeaves (mtRoot H (s.2.map (leafEntryHash LH))),
            fromEntries s.2⟩)))

/-- Failure modes of a prover query: the shard file cannot be fetched
(`fs.readFileSync` throws), or the address is absent from the fetched shard
(the JS dereferences `entry.balance` on `undefined` and throws — the spec's
`NotFound`). -/
inductive ProverFailure
  | shardNotFound
  | notFound

deriving DecidableEq, Repr

/-- A `ShardedMerkleTree` prover instance: the shard fetcher, the manifest
data, and the growable shard cache (`this.shards`; the parallel `this.trees`
cache is a pure function of the shard and is recomputed here). -/
structure Prover where
  fetcher : List Char → Option ShardFile
  shardNybbles : Nat
  root : Nat
  total : Nat
  cache : List (List Char × ShardFile)

/-- `ShardedMerkleTree.getProof(address)`: select the shard by the address
prefix, fetch it on first use (caching it), look the address up in the
shard's entries, rebuild the shard tree from those entries and return the
entry with [shard-internal path] ++ [persisted root-tree path]. Returns the
answer and the updated prover. -/
def proverGetProof (p : Prover) (a : Addr) :
    Except ProverFailure (Entry × List Nat) × Prover :=
  let sid := shardIdOf p.shardNybbles a
  let answer : ShardFile → Except ProverFailure (Entry × List Nat) :=
    fun shard =>
      match alookup a shard.entries with
      | none => Except.error ProverFailure.notFound
      | some e =>
        Except.ok (e,
          mtProofFor H (shard.entries.map (leafEntryHash LH)) (LH a e.balance)
            ++ shard.proof)
  match klookup sid p.cache with
  | some shard => (answer shard, p)
  | none =>
    match p.fetcher sid with
    | none => (Except.error ProverFailure.shardNotFound, p)
    | some shard =>
      (answer shard,
       ⟨p.fetcher, p.shardNybbles, p.root, p.total, p.cache ++ [(sid, shard)]⟩)

/-- `ShardedMerkleTree.fromFiles(directory)`: serve shards from the persisted
files, starting from an empty cache. -/
def fromFiles (manifest : Manifest) (files : List (List Char × ShardFile)) :
    Prover :=
  ⟨fun sid => klookup sid files, manifest.shardNybbles, manifest.root,
   manifest.total, []⟩

/-- Modelled from the spec: `MerkleProof.verify(proof, root, leaf)`.
`MerkleProof.sol` is imported by `ENSToken.sol` and by the `MerkleAirdrop`
contract (src/unnamed/part_009) but its source is not part of this
repository snapshot; it is modelled from spec §4.3 steps 2–3 and from its
in-repository JS mirror `getIndex` (`src/test/merkleairdrop.js` lines
20–38): fold the proof with the sorted-pair keccak rule starting from the
leaf, building the positional index alongside, and report whether the final
accumulator equals the stored root, together with that index. -/
def MerkleVerify (proof : List Nat) (root leaf : Nat) : Bool × Nat :=
  (decide (hashFold H leaf proof = root), indexFoldA H leaf 0 proof)

/-- Revert reasons of the modelled contract calls. -/
inductive ContractError
  | InvalidProof
  | AlreadyClaimed
  | InsufficientFunds
  | NotOwner
  | RootAlreadySet

deriving DecidableEq, Repr

/-- Modelled from the spec: the ERC20 token-transfer collaborator (§7,
`InsufficientReserve`): OpenZeppelin's ERC20 is not part of the snapshot; a
transfer moves `amount` from `src` to `dst` and fails exactly when the
distributing balance is lower than the amount. -/
def transferTokens (bal : Addr → Nat) (src dst : Addr) (amount : Nat) :
    Option (Addr → Nat) :=
  if amount ≤ bal src then
    some (fun x =>
      if x = src then (if x = dst then bal x else bal x - amount)
      else if x = dst then bal x + amount
      else bal x)
  else none

/-- On-chain state of the `MerkleAirdrop` contract (src/unnamed/part_009)
together with its ERC20 token's balance map: contract owner, airdrop
`sender` account, stored `merkleRoot`, the claim bitmap `claimed`, and the
token balances. -/
structure AirdropState where
  owner : Addr
  sender : Addr
  merkleRoot : Nat
  claimed : Nat → Bool
  balances : Addr → Nat

/-- `MerkleAirdrop.isClaimed(index)`. -/
def isClaimed (st : AirdropState) (index : Nat) : Bool :=
  st.claimed index

/-- `MerkleAirdrop.claimTokens(recipient, amount, merkleProof)`. `caller` is
`msg.sender`: present because the function is externally callable, but
unused by the body, so any caller may claim on behalf of `recipient`.
Requires a valid proof, then an unclaimed index; then sets the bitmap bit at
the recomputed index and transfers `amount` from `sender` to `recipient`
(`token.transferFrom(sender, recipient, amount)`). A revert produces no
successor state. -/
def claimTokens (st : AirdropState) (caller recipient : Addr) (amount : Nat)
    (merkleProof : List Nat) : Except ContractError AirdropState :=
  let leaf := LH recipient amount
  let v := MerkleVerify H merkleProof st.merkleRoot leaf
  if !v.1 then Except.error ContractError.InvalidProof
  else if isClaimed st v.2 then Except.error ContractError.AlreadyClaimed
  else
    match transferTokens st.balances st.sender recipient amount with
    | none => Except.error ContractError.InsufficientFunds
    | some bal =>
      Except.ok ⟨st.owner, st.sender, st.merkleRoot,
        fun j => if j = v.2 then true else st.claimed j, bal⟩

/-- An external call to `claimTokens` with EVM transaction semantics: a
revert rolls everything back to the pre-call state and surfaces the error. -/
def callClaimTokens (st : AirdropState) (caller recipient : Addr)
    (amount : Nat) (merkleProof : List Nat) :
    AirdropState × Option ContractError :=
  match claimTokens H LH st caller recipient amount merkleProof with
  | Except.ok st2 => (st2, none)
  | Except.error e => (st, some e)

/-- `MerkleAirdrop.setMerkleRoot(_merkleRoot)` with its `onlyOwner`
modifier: callable only by the owner, and only while the stored root is
zero (`require(merkleRoot == bytes32(0))`); `ENSToken.setMerkleRoot` is
identical. -/
def setMerkleRoot (st : AirdropState) (caller : Addr) (newRoot : Nat) :
    Except ContractError AirdropState :=
  if caller ≠ st.owner then Except.error ContractError.NotOwner
  else if st.merkleRoot ≠ 0 then Except.error ContractError.RootAlreadySet
  else Except.ok ⟨st.owner, st.sender, newRoot, st.claimed, st.balances⟩

/-- A concrete stand-in for the keccak256 pair combination, used to evaluate
witnesses and counterexamples: an injective pairing (Cantor), shifted so the
combined values are distinguishable from the small leaf hashes used below. -/
def cH (a b : Nat) : Nat :=
  (a + b) * (a + b + 1) / 2 + b + 100

/-- A concrete stand-in for the leaf hash `keccak256(address ‖ balance)` in
witnesses and counterexamples. -/
def cLH (a : Addr) (balance : Nat) : Nat :=
  (a.foldl (fun n c => n * 64 + c.toNat % 64) 1) * 1000 + balance

/-- The positional index fold exactly as the specification words it: start
with index 0 and accumulator = leaf hash; at each step double the index and
add 1 exactly when the proof element sorts strictly before the accumulator;
the accumulator becomes the hash of the two values concatenated in ascending
order. -/
def specIndexFold (H : Nat → Nat → Nat) (acc idx : Nat) : List Nat → Nat
  | [] => idx
  | e :: rest =>
    specIndexFold H (hashSortedPair H acc e) (2 * idx + if e < acc then 1 else 0) rest

/-- The root-tree leaf list `Object.values(roots)` of a build, in canonical
(first-occurrence key) order. -/
def rootLeavesOf (n : Nat) (entries : List (Addr × Entry)) : List Nat :=
  (shardKeys n entries).map
    (fun k => mtRoot H ((bucket n entries k).map (leafEntryHash LH)))

deriving instance DecidableEq for Except

/-- Fuel-indexed check that every level of the tree over `l` (the given
level and all levels above it) is duplicate-free. -/
def levelsNodupB : Nat → List Nat → Bool
  | _, [] => true
  | _, [_] => true
  | 0, _ :: _ :: _ => false
  | fuel + 1, a :: b :: rest =>
    decide ((a :: b :: rest).Nodup) && levelsNodupB fuel (nextLevel H (a :: b :: rest))

/-- Every level of the Merkle tree over `l` is duplicate-free: the natural
no-collision hypothesis under which positional indices are well defined. -/
def levelsNodup (l : List Nat) : Bool :=
  levelsNodupB H l.length l

end Definitions

section Theorems

variable (H : Nat → Nat → Nat) (LH : Addr → Nat → Nat)

/-- Each level halves the node count, rounding up. -/
theorem nextLevel_length : ∀ l : List Nat, (nextLevel H l).length = (l.length + 1) / 2
  | [] => by simp [nextLevel]
  | [_] => by simp [nextLevel]
  | _ :: _ :: rest => by simp [nextLevel, nextLevel_length rest]; omega

/-- The fuel is irrelevant once it covers the leaf count. -/
theorem rootOfAux_congr :
    ∀ (l : List Nat) (f f' : Nat), l.length ≤ f → l.length ≤ f' →
      rootOfAux H f l = rootOfAux H f' l
  | [], f, f', _, _ => by cases f <;> cases f' <;> rfl
  | [a], f, f', _, _ => by cases f <;> cases f' <;> rfl
  | a :: b :: rest, f, f', hf, hf' => by
    cases f with
    | zero => simp at hf
    | succ g =>
      cases f' with
      | zero => simp at hf'
      | succ g' =>
        show rootOfAux H g (nextLevel H (a :: b :: rest))
          = rootOfAux H g' (nextLevel H (a :: b :: rest))
        have hlen : (nextLevel H (a :: b :: rest)).length
            = ((a :: b :: rest).length + 1) / 2 := nextLevel_length H _
        refine rootOfAux_congr (nextLevel H (a :: b :: rest)) g g' ?_ ?_
        · simp only [List.length_cons] at hf hlen ⊢; omega
        · simp only [List.length_cons] at hf' hlen ⊢; omega
termination_by l => l.length
decreasing_by
  simp only [nextLevel_length, List.length_cons]; omega

/-- Degenerate tree: the root of at most one node is that node (or 0). -/
theorem rootOf_small {l : List Nat} (h : l.length ≤ 1) :
    rootOf H l = l.headD 0 := by
  rcases l with _ | ⟨a, _ | ⟨b, t⟩⟩
  · rfl
  · rfl
  · simp at h

/-- One level step of `getRoot`. -/
theorem rootOf_step {l : List Nat} (h : ¬ l.length ≤ 1) :
    rootOf H l = rootOf H (nextLevel H l) := by
  rcases l with _ | ⟨a, _ | ⟨b, t⟩⟩
  · simp at h
  · simp at h
  · show rootOfAux H (t.length + 1 + 1) (a :: b :: t) = _
    have hstep : rootOfAux H (t.length + 1 + 1) (a :: b :: t)
        = rootOfAux H (t.length + 1) (nextLevel H (a :: b :: t)) := rfl
    rw [hstep]
    unfold rootOf
    refine rootOfAux_congr H _ _ _ ?_ ?_
    · rw [nextLevel_length]; simp; omega
    · exact Nat.le_refl _

/-- The fuel is irrelevant once it covers the leaf count. -/
theorem proofOfAux_congr :
    ∀ (l : List Nat) (f f' i : Nat), l.length ≤ f → l.length ≤ f' →
      proofOfAux H f l i = proofOfAux H f' l i
  | [], f, f', i, _, _ => by cases f <;> cases f' <;> rfl
  | [a], f, f', i, _, _ => by cases f <;> cases f' <;> rfl
  | a :: b :: rest, f, f', i, hf, hf' => by
    cases f with
    | zero => simp at hf
    | succ g =>
      cases f' with
      | zero => simp at hf'
      | succ g' =>
        show _ ++ proofOfAux H g (nextLevel H (a :: b :: rest)) (i / 2)
          = _ ++ proofOfAux H g' (nextLevel H (a :: b :: rest)) (i / 2)
        have hlen : (nextLevel H (a :: b :: rest)).length
            = ((a :: b :: rest).length + 1) / 2 := nextLevel_length H _
        rw [proofOfAux_congr (nextLevel H (a :: b :: rest)) g g' (i / 2)
          (by simp only [List.length_cons] at hf hlen ⊢; omega)
          (by simp only [List.length_cons] at hf' hlen ⊢; omega)]
termination_by l => l.length
decreasing_by
  simp only [nextLevel_length, List.length_cons]; omega

/-- Degenerate tree: a single node (or the empty tree) has the empty proof. -/
theorem proofOf_small {l : List Nat} (h : l.length ≤ 1) (i : Nat) :
    proofOf H l i = [] := by
  rcases l with _ | ⟨a, _ | ⟨b, t⟩⟩
  · rfl
  · rfl
  · simp at h

/-- One level step of `getProof`. -/
theorem proofOf_step {l : List Nat} (h : ¬ l.length ≤ 1) (i : Nat) :
    proofOf H l i =
      (if (if i % 2 = 1 then i - 1 else i + 1) < l.length
       then [l.getD (if i % 2 = 1 then i - 1 else i + 1) 0]
       else []) ++ proofOf H (nextLevel H l) (i / 2) := by
  rcases l with _ | ⟨a, _ | ⟨b, t⟩⟩
  · simp at h
  · simp at h
  · show proofOfAux H (t.length + 1 + 1) (a :: b :: t) i = _
    have hstep : proofOfAux H (t.length + 1 + 1) (a :: b :: t) i
        = (if (if i % 2 = 1 then i - 1 else i + 1) < (a :: b :: t).length
           then [(a :: b :: t).getD (if i % 2 = 1 then i - 1 else i + 1) 0]
           else []) ++ proofOfAux H (t.length + 1) (nextLevel H (a :: b :: t)) (i / 2) := rfl
    rw [hstep]
    unfold proofOf
    rw [proofOfAux_congr H _ _ _ _
      (by rw [nextLevel_length]; simp; omega) (Nat.le_refl _)]

/-- Sorting before hashing makes the pair combination symmetric. -/
theorem hashSortedPair_comm (a b : Nat) : hashSortedPair H a b = hashSortedPair H b a := by
  unfold hashSortedPair
  rcases Nat.lt_trichotomy a b with h | h | h
  · simp [Nat.le_of_lt h, Nat.not_le.mpr h]
  · simp [h]
  · simp [Nat.le_of_lt h, Nat.not_le.mpr h]

/-- A fully paired node of a level combines positions `2k` and `2k+1`. -/
theorem nextLevel_getD_pair : ∀ (l : List Nat) (k : Nat), 2 * k + 1 < l.length →
    (nextLevel H l).getD k 0 = hashSortedPair H (l.getD (2 * k) 0) (l.getD (2 * k + 1) 0)
  | [], k, h => by simp at h
  | [_], k, h => by simp at h
  | _ :: _ :: _, 0, _ => by simp [nextLevel]
  | a :: b :: rest, (k + 1), h => by
    have ih := nextLevel_getD_pair rest k (by simp at h ⊢; omega)
    have e2 : 2 * (k + 1) = 2 * k + 1 + 1 := by omega
    have e3 : 2 * (k + 1) + 1 = 2 * k + 1 + 1 + 1 := by omega
    simp only [nextLevel, e2, e3, List.getD_cons_succ]
    exact ih

/-- The promoted last node of an odd-length level passes through unchanged. -/
theorem nextLevel_getD_promoted : ∀ (l : List Nat) (k : Nat), 2 * k + 1 = l.length →
    (nextLevel H l).getD k 0 = l.getD (2 * k) 0
  | [], k, h => by simp at h
  | [a], k, h => by
    have h1 : 2 * k + 1 = 1 := by simpa using h
    have hk : k = 0 := by omega
    subst hk; simp [nextLevel]
  | _ :: _ :: _, 0, h => by simp at h
  | a :: b :: rest, (k + 1), h => by
    have ih := nextLevel_getD_promoted rest k (by simp at h ⊢; omega)
    have e2 : 2 * (k + 1) = 2 * k + 1 + 1 := by omega
    simp only [nextLevel, e2, List.getD_cons_succ]
    exact ih

/-- Folding a concatenated proof folds its parts in sequence. -/
theorem hashFold_append (x : Nat) (p q : List Nat) :
    hashFold H x (p ++ q) = hashFold H (hashFold H x p) q := by
  simp [hashFold, List.foldl_append]

/-- Correctness of merkletreejs `getProof` against the verifier's fold: for
any node of the (processed) leaf level, folding its proof path with the
sorted-pair rule reconstructs the tree root. -/
theorem hashFold_proofOf (l : List Nat) (i : Nat) (hi : i < l.length) :
    hashFold H (l.getD i 0) (proofOf H l i) = rootOf H l := by
  by_cases h : l.length ≤ 1
  · have hi0 : i = 0 := by omega
    subst hi0
    rw [proofOf_small H h, rootOf_small H h]
    rcases l with _ | ⟨a, l'⟩
    · simp at hi
    · rcases l' with _ | ⟨b, t⟩
      · simp [hashFold]
      · simp at h
  · rw [proofOf_step H h, rootOf_step H h]
    have hnn : ¬ (nextLevel H l).length ≤ 1 ∨ (nextLevel H l).length ≤ 1 := (em _).symm
    have hlen2 : 2 ≤ l.length := by omega
    have hnext : (nextLevel H l).length = (l.length + 1) / 2 := nextLevel_length H l
    have hhalf : i / 2 < (nextLevel H l).length := by omega
    have ih := hashFold_proofOf (nextLevel H l) (i / 2) hhalf
    by_cases hodd : i % 2 = 1
    · -- odd position: the sibling `i - 1` always exists
      have hpj : (if i % 2 = 1 then i - 1 else i + 1) = i - 1 := by simp [hodd]
      have hlt : i - 1 < l.length := by omega
      rw [hpj, if_pos hlt, hashFold_append]
      have hstep : hashFold H (l.getD i 0) [l.getD (i - 1) 0]
          = (nextLevel H l).getD (i / 2) 0 := by
        have hk : 2 * (i / 2) = i - 1 := by omega
        rw [nextLevel_getD_pair H l (i / 2) (by omega), hk]
        have e1 : i - 1 + 1 = i := by omega
        rw [e1]
        simp [hashFold, hashSortedPair_comm]
      rw [hstep, ih]
    · by_cases hsib : (if i % 2 = 1 then i - 1 else i + 1) < l.length
      · -- even position with a right sibling `i + 1`
        have hpj : (if i % 2 = 1 then i - 1 else i + 1) = i + 1 := by simp [hodd]
        rw [if_pos hsib, hashFold_append]
        rw [hpj] at hsib
        have hstep : hashFold H (l.getD i 0) [l.getD (i + 1) 0]
            = (nextLevel H l).getD (i / 2) 0 := by
          have hk : 2 * (i / 2) = i := by omega
          rw [nextLevel_getD_pair H l (i / 2) (by omega), hk]
          simp [hashFold]
        rw [hpj, hstep, ih]
      · -- even last position of an odd-length level: promoted, no sibling
        have hpj : (if i % 2 = 1 then i - 1 else i + 1) = i + 1 := by simp [hodd]
        rw [hpj] at hsib
        have hlast : 2 * (i / 2) + 1 = l.length := by omega
        have hk : 2 * (i / 2) = i := by omega
        rw [if_neg (by rw [hpj]; exact hsib)]
        simp only [List.nil_append]
        have hprom := nextLevel_getD_promoted H l (i / 2) hlast
        rw [hk] at hprom
        rw [← hprom]
        exact ih
termination_by l.length
decreasing_by simp [nextLevel_length]; omega

/-- The index fold is affine in its index accumulator. -/
theorem indexFoldA_linear : ∀ (p : List Nat) (acc idx : Nat),
    indexFoldA H acc idx p = idx * 2 ^ p.length + indexFoldA H acc 0 p
  | [], acc, idx => by simp [indexFoldA]
  | e :: rest, acc, idx => by
    simp only [indexFoldA, List.length_cons]
    rw [indexFoldA_linear rest (hashSortedPair H acc e)
        (2 * idx + if acc ≤ e then 0 else 1),
      indexFoldA_linear rest (hashSortedPair H acc e)
        (2 * 0 + if acc ≤ e then 0 else 1)]
    ring

/-- The index fold stays below `(idx + 1) · 2^(proof length)`. -/
theorem indexFoldA_lt : ∀ (p : List Nat) (acc idx : Nat),
    indexFoldA H acc idx p < (idx + 1) * 2 ^ p.length
  | [], acc, idx => by simp [indexFoldA]
  | e :: rest, acc, idx => by
    simp only [indexFoldA, List.length_cons]
    refine lt_of_lt_of_le
      (indexFoldA_lt rest (hashSortedPair H acc e)
        (2 * idx + if acc ≤ e then 0 else 1)) ?_
    have h2 : 2 * idx + (if acc ≤ e then 0 else 1) + 1 ≤ 2 * (idx + 1) := by
      split <;> omega
    calc (2 * idx + (if acc ≤ e then 0 else 1) + 1) * 2 ^ rest.length
        ≤ 2 * (idx + 1) * 2 ^ rest.length := Nat.mul_le_mul_right _ h2
      _ = (idx + 1) * 2 ^ (rest.length + 1) := by ring

/-- Membership transfers to the sorted leaf level. -/
theorem mem_sortLvs {x : Nat} {l : List Nat} (hx : x ∈ l) : x ∈ sortLvs l :=
  (List.perm_insertionSort (· ≤ ·) l).symm.subset hx

/-- For any leaf present in the tree, folding its `getProof` path with the
sorted-pair rule reconstructs `getRoot`. -/
theorem hashFold_mtProofFor {x : Nat} {leaves : List Nat} (hx : x ∈ leaves) :
    hashFold H x (mtProofFor H leaves x) = mtRoot H leaves := by
  have hmem : x ∈ sortLvs leaves := mem_sortLvs hx
  have hidx : (sortLvs leaves).indexOf x < (sortLvs leaves).length :=
    List.indexOf_lt_length.mpr hmem
  have hget : (sortLvs leaves).getD ((sortLvs leaves).indexOf x) 0 = x := by
    rw [List.getD_eq_getElem _ _ hidx]
    exact List.getElem_indexOf hidx
  have := hashFold_proofOf H (sortLvs leaves) ((sortLvs leaves).indexOf x) hidx
  rw [hget] at this
  exact this

/-- The fuel is irrelevant once it covers the list length. -/
theorem firstDedupAux_congr :
    ∀ (l : List (List Char)) (f f' : Nat), l.length ≤ f → l.length ≤ f' →
      firstDedupAux f l = firstDedupAux f' l
  | [], f, f', _, _ => by cases f <;> cases f' <;> rfl
  | k :: t, f, f', hf, hf' => by
    cases f with
    | zero => simp at hf
    | succ g =>
      cases f' with
      | zero => simp at hf'
      | succ g' =>
        show k :: firstDedupAux g (t.filter (fun x => decide (x ≠ k)))
          = k :: firstDedupAux g' (t.filter (fun x => decide (x ≠ k)))
        rw [firstDedupAux_congr (t.filter (fun x => decide (x ≠ k))) g g'
          (le_trans (List.length_filter_le _ t) (by simpa using hf))
          (le_trans (List.length_filter_le _ t) (by simpa using hf'))]
termination_by l => l.length
decreasing_by
  exact Nat.lt_succ_of_le (List.length_filter_le _ t)

theorem firstDedup_cons (k : List Char) (t : List (List Char)) :
    firstDedup (k :: t)
      = k :: firstDedup (t.filter (fun x => decide (x ≠ k))) := by
  show k :: firstDedupAux t.length (t.filter (fun x => decide (x ≠ k))) = _
  unfold firstDedup
  rw [firstDedupAux_congr _ _ _ (List.length_filter_le _ t) (Nat.le_refl _)]

theorem mem_firstDedup : ∀ (l : List (List Char)) (x : List Char),
    x ∈ firstDedup l ↔ x ∈ l
  | [], x => by simp [firstDedup, firstDedupAux]
  | k :: t, x => by
    rw [firstDedup_cons]
    by_cases hx : x = k
    · subst hx; simp
    · simp only [List.mem_cons, hx, false_or]
      rw [mem_firstDedup (t.filter (fun x => decide (x ≠ k))) x]
      simp [hx]
termination_by l => l.length
decreasing_by
  exact Nat.lt_succ_of_le (List.length_filter_le _ t)

theorem firstDedup_append_singleton :
    ∀ (l : List (List Char)) (x : List Char),
      firstDedup (l ++ [x]) =
        if x ∈ l then firstDedup l else firstDedup l ++ [x]
  | [], x => by simp [firstDedup, firstDedupAux]
  | k :: t, x => by
    by_cases hx : x = k
    · subst hx
      rw [List.cons_append, firstDedup_cons, firstDedup_cons]
      simp [List.filter_append]
    · rw [List.cons_append, firstDedup_cons, firstDedup_cons, List.filter_append]
      have hfx : [x].filter (fun y => decide (y ≠ k)) = [x] := by simp [hx]
      rw [hfx, firstDedup_append_singleton (t.filter (fun y => decide (y ≠ k))) x]
      by_cases hxt : x ∈ t
      · simp [hxt, hx, List.mem_filter]
      · have : x ∉ t.filter (fun y => decide (y ≠ k)) := by
          simp [List.mem_filter, hxt]
        simp [this, hxt, hx]
termination_by l => l.length
decreasing_by
  exact Nat.lt_succ_of_le (List.length_filter_le _ t)

theorem bucket_append_singleton (n : Nat) (l : List (Addr × Entry))
    (p : Addr × Entry) (k : List Char) :
    bucket n (l ++ [p]) k =
      bucket n l k ++ (if shardIdOf n p.1 = k then [p] else []) := by
  unfold bucket
  rw [List.filter_append]
  by_cases h : shardIdOf n p.1 = k <;> simp [h]

theorem canonShards_any (n : Nat) (l : List (Addr × Entry)) (k : List Char) :
    (canonShards n l).any (fun b => decide (b.1 = k)) =
      decide (k ∈ l.map (fun p => shardIdOf n p.1)) := by
  by_cases hk : k ∈ l.map (fun p => shardIdOf n p.1)
  · rw [decide_eq_true hk, List.any_eq_true]
    refine ⟨(k, bucket n l k), ?_, by simp⟩
    exact List.mem_map_of_mem _ ((mem_firstDedup _ _).mpr hk)
  · rw [decide_eq_false hk, List.any_eq_false]
    rintro ⟨k', bl⟩ hmem
    simp only [decide_eq_true_eq]
    rintro rfl
    obtain ⟨k2, hk2, heq⟩ := List.mem_map.mp hmem
    injection heq with h1 h2
    subst h1
    exact hk ((mem_firstDedup _ _).mp hk2)

theorem pushBucket_canon (n : Nat) (l : List (Addr × Entry))
    (p : Addr × Entry) :
    pushBucket (canonShards n l) (shardIdOf n p.1) p =
      canonShards n (l ++ [p]) := by
  unfold pushBucket
  rw [canonShards_any]
  by_cases hk : shardIdOf n p.1 ∈ l.map (fun q => shardIdOf n q.1)
  · rw [decide_eq_true hk, if_pos rfl]
    unfold canonShards shardKeys
    simp only [List.map_append, List.map_cons, List.map_nil]
    rw [firstDedup_append_singleton, if_pos hk, List.map_map]
    apply List.map_congr_left
    intro k hkmem
    simp only [Function.comp_apply]
    rw [bucket_append_singleton]
    by_cases he : k = shardIdOf n p.1
    · subst he; simp
    · have : ¬ (shardIdOf n p.1 = k) := fun h => he h.symm
      simp [he, this]
  · rw [decide_eq_false hk, if_neg (by simp)]
    unfold canonShards shardKeys
    simp only [List.map_append, List.map_cons, List.map_nil]
    rw [firstDedup_append_singleton, if_neg hk, List.map_append]
    congr 1
    · apply List.map_congr_left
      intro k hkmem
      rw [bucket_append_singleton]
      have hkl : k ∈ l.map (fun q => shardIdOf n q.1) :=
        (mem_firstDedup _ _).mp hkmem
      have : ¬ (shardIdOf n p.1 = k) := by
        intro h
        exact hk (h ▸ hkl)
      simp [this]
    · simp only [List.map_cons, List.map_nil]
      rw [bucket_append_singleton]
      have hempty : bucket n l (shardIdOf n p.1) = [] := by
        unfold bucket
        rw [List.filter_eq_nil_iff]
        intro q hq
        simp only [decide_eq_true_eq]
        intro habs
        exact hk (habs ▸ List.mem_map_of_mem (fun r => shardIdOf n r.1) hq)
      simp [hempty]

theorem buildShards_aux (n : Nat) :
    ∀ (l acc : List (Addr × Entry)),
      l.foldl (fun bs p => pushBucket bs (shardIdOf n p.1) p)
          (canonShards n acc) = canonShards n (acc ++ l)
  | [], acc => by simp
  | p :: t, acc => by
    rw [List.foldl_cons, pushBucket_canon, buildShards_aux n t (acc ++ [p])]
    simp

/-- The builder's bucketing loop computes exactly: shard keys in
first-occurrence order, each with its (input-ordered) bucket of entries. -/
theorem buildShards_eq_canon (n : Nat) (entries : List (Addr × Entry)) :
    buildShards n entries = canonShards n entries := by
  have h0 : canonShards n [] = [] := by
    simp [canonShards, shardKeys, firstDedup, firstDedupAux]
  have := buildShards_aux n entries []
  rw [h0] at this
  simpa [buildShards] using this

theorem alookup_append {β : Type} (a : Addr) :
    ∀ (l1 l2 : List (Addr × β)),
      alookup a (l1 ++ l2) = (alookup a l1).or (alookup a l2)
  | [], l2 => by simp [alookup]
  | (k, v) :: t, l2 => by
    by_cases h : k = a
    · simp [alookup, h]
    · simp [alookup, h, alookup_append a t l2]

theorem klookup_append {β : Type} (k : List Char) :
    ∀ (l1 l2 : List (List Char × β)),
      klookup k (l1 ++ l2) = (klookup k l1).or (klookup k l2)
  | [], l2 => by simp [klookup]
  | (k0, v) :: t, l2 => by
    by_cases h : k0 = k
    · simp [klookup, h]
    · simp [klookup, h, klookup_append k t l2]

theorem overwrite_alookup_ne (b : Addr) (e : Entry) (a : Addr) (hab : a ≠ b) :
    ∀ t : List (Addr × Entry),
      alookup a (t.map (fun p => if p.1 = b then (b, e) else p)) = alookup a t
  | [] => rfl
  | (k, v) :: t => by
    by_cases hkb : k = b
    · subst hkb
      rw [List.map_cons, if_pos rfl]
      have hka : ¬ (k = a) := fun h => hab h.symm
      simp only [alookup, if_neg hka]
      exact overwrite_alookup_ne k e a hab t
    · rw [List.map_cons, if_neg hkb]
      by_cases hka : k = a
      · simp [alookup, hka]
      · simp only [alookup, if_neg hka]
        exact overwrite_alookup_ne b e a hab t

theorem overwrite_alookup_eq (b : Addr) (e : Entry) :
    ∀ t : List (Addr × Entry), b ∈ t.map Prod.fst →
      alookup b (t.map (fun p => if p.1 = b then (b, e) else p)) = some e
  | [], h => by simp at h
  | (k, v) :: t, h => by
    by_cases hkb : k = b
    · subst hkb
      rw [List.map_cons, if_pos rfl]
      simp [alookup]
    · rw [List.map_cons, if_neg hkb]
      simp only [alookup, if_neg hkb]
      refine overwrite_alookup_eq b e t ?_
      rcases List.mem_cons.mp h with h1 | h1
      · exact absurd h1.symm hkb
      · exact h1

theorem objAssign_alookup (l : List (Addr × Entry)) (b : Addr) (e : Entry)
    (a : Addr) :
    alookup a (objAssign l b e) = if b = a then some e else alookup a l := by
  unfold objAssign
  by_cases hany : l.any (fun p => decide (p.1 = b)) = true
  · rw [if_pos hany]
    by_cases hba : b = a
    · subst hba
      rw [if_pos rfl]
      apply overwrite_alookup_eq
      rcases List.any_eq_true.mp hany with ⟨q, hq, hqb⟩
      have hqb1 : q.1 = b := by simpa using hqb
      exact hqb1 ▸ List.mem_map_of_mem Prod.fst hq
    · rw [if_neg hba]
      exact overwrite_alookup_ne b e a (fun h => hba h.symm) l
  · rw [if_neg hany, alookup_append]
    have hbl : alookup b l = none := by
      induction l with
      | nil => rfl
      | cons p t ih =>
        have hpb : ¬ (p.1 = b) := by
          intro habs
          exact hany (List.any_eq_true.mpr ⟨p, List.mem_cons_self p t, by simp [habs]⟩)
        rcases p with ⟨k, v⟩
        simp only [alookup, if_neg hpb]
        apply ih
        intro habs
        apply hany
        rcases List.any_eq_true.mp habs with ⟨q, hq, hqb⟩
        exact List.any_eq_true.mpr ⟨q, List.mem_cons_of_mem _ hq, hqb⟩
    by_cases hba : b = a
    · subst hba
      simp [hbl, alookup]
    · have h1 : alookup a [(b, e)] = none := by simp [alookup, hba]
      rw [h1, if_neg hba]
      cases alookup a l <;> rfl

theorem foldAssign_alookup (a : Addr) :
    ∀ (l : List (Addr × Entry)) (acc : List (Addr × Entry)),
      alookup a (l.foldl (fun acc p => objAssign acc p.1 p.2) acc) =
        (alookup a l.reverse).or (alookup a acc)
  | [], acc => by simp [alookup]
  | p :: t, acc => by
    rw [List.foldl_cons, foldAssign_alookup a t (objAssign acc p.1 p.2)]
    simp only [List.reverse_cons]
    rw [alookup_append, objAssign_alookup]
    rcases p with ⟨k, v⟩
    by_cases hka : k = a
    · cases ht : alookup a t.reverse <;> simp [alookup, hka]
    · cases ht : alookup a t.reverse <;> simp [alookup, hka]

/-- A key of an object built by `Object.fromEntries` holds the value of the
last pair carrying that key. -/
theorem fromEntries_alookup (l : List (Addr × Entry)) (a : Addr) :
    alookup a (fromEntries l) = alookup a l.reverse := by
  unfold fromEntries
  rw [foldAssign_alookup]
  cases h : alookup a l.reverse <;> simp [alookup]

/-- With pairwise-distinct keys, `Object.fromEntries` keeps the pair list
unchanged. -/
theorem fromEntries_eq_self :
    ∀ (l : List (Addr × Entry)), (l.map Prod.fst).Nodup → fromEntries l = l := by
  have aux : ∀ (l acc : List (Addr × Entry)),
      ((acc ++ l).map Prod.fst).Nodup →
      l.foldl (fun acc p => objAssign acc p.1 p.2) acc = acc ++ l := by
    intro l
    induction l with
    | nil => intro acc _; simp
    | cons p t ih =>
      intro acc hnd
      have hnotin : ¬ acc.any (fun q => decide (q.1 = p.1)) = true := by
        intro habs
        rcases List.any_eq_true.mp habs with ⟨q, hq, hqb⟩
        have hqp : q.1 = p.1 := by simpa using hqb
        have h1 : p.1 ∈ (acc.map Prod.fst) := by
          rw [← hqp]; exact List.mem_map_of_mem Prod.fst hq
        have h2 : p.1 ∈ ((p :: t).map Prod.fst) := by
          rw [List.map_cons]; exact List.mem_cons_self _ _
        rw [List.map_append] at hnd
        exact (List.disjoint_of_nodup_append hnd) h1 h2
      have hstep : objAssign acc p.1 p.2 = acc ++ [p] := by
        unfold objAssign
        rw [if_neg hnotin]
      rw [List.foldl_cons, hstep, ih (acc ++ [p]) (by simpa using hnd)]
      simp
  intro l hnd
  unfold fromEntries
  simpa using aux l [] (by simpa using hnd)

/-- Lookup in a pair list with pairwise-distinct keys finds the unique pair. -/
theorem alookup_eq_of_mem_nodup :
    ∀ (l : List (Addr × Entry)) (a : Addr) (e : Entry),
      (l.map Prod.fst).Nodup → (a, e) ∈ l → alookup a l = some e
  | [], a, e, _, hmem => by simp at hmem
  | (k, v) :: t, a, e, hnd, hmem => by
    by_cases hka : k = a
    · subst hka
      have hev : v = e := by
        rcases List.mem_cons.mp hmem with h | h
        · injection h.symm
        · exfalso
          have h1 : k ∈ t.map Prod.fst := List.mem_map.mpr ⟨(k, e), h, rfl⟩
          simp only [List.map_cons, List.nodup_cons] at hnd
          exact hnd.1 h1
      simp [alookup, hev]
    · have hmem' : (a, e) ∈ t := by
        rcases List.mem_cons.mp hmem with h | h
        · exfalso; apply hka; injection h.symm
        · exact h
      simp only [alookup, if_neg hka]
      exact alookup_eq_of_mem_nodup t a e
        (by simp only [List.map_cons, List.nodup_cons] at hnd; exact hnd.2) hmem'

/-- Lookup in an association list tabulating a function over the keys. -/
theorem klookup_map_tabulate {β : Type} (f : List Char → β) :
    ∀ (ks : List (List Char)) (k : List Char), k ∈ ks →
      klookup k (ks.map (fun x => (x, f x))) = some (f k)
  | [], k, hk => by simp at hk
  | k0 :: t, k, hk => by
    by_cases hkk : k0 = k
    · subst hkk
      simp [klookup]
    · simp only [List.map_cons, klookup, if_neg hkk]
      refine klookup_map_tabulate f t k ?_
      rcases List.mem_cons.mp hk with h | h
      · exact absurd h.symm hkk
      · exact h

theorem indexFoldA_eq_specIndexFold (H : Nat → Nat → Nat) :
    ∀ (p : List Nat) (acc idx : Nat),
      indexFoldA H acc idx p = specIndexFold H acc idx p
  | [], acc, idx => rfl
  | e :: rest, acc, idx => by
    have hbit : (if acc ≤ e then 0 else 1) = (if e < acc then 1 else 0) := by
      rcases Nat.lt_or_ge e acc with h | h
      · simp [h, Nat.not_le.mpr h]
      · simp [Nat.not_lt.mpr h, h]
    simp only [indexFoldA, specIndexFold, hbit]
    exact indexFoldA_eq_specIndexFold H rest (hashSortedPair H acc e) _

/-- C4: during proof verification the leaf's bitmap index is computed by the
fold the specification describes — start with index 0 and accumulator = leaf
hash; at each proof element double the index and add 1 exactly when the
element sorts strictly before the accumulator, the accumulator becoming the
hash of the two in ascending order — and that final index is exactly the
index `MerkleProof.verify` hands to the bitmap. -/
theorem claim4_index_fold (H : Nat → Nat → Nat) (LH : Addr → Nat → Nat)
    (a : Addr) (b root : Nat) (p : List Nat) :
    getIndex H LH a b p = specIndexFold H (LH a b) 0 p ∧
    (MerkleVerify H p root (LH a b)).2 = getIndex H LH a b p :=
  ⟨indexFoldA_eq_specIndexFold H p (LH a b) 0, rfl⟩

/-- C3: whenever the recomputed root differs from the stored `merkleRoot`,
an external `claimTokens` call fails with `InvalidProof` and causes no state
change at all: the post-call state is the pre-call state — in particular the
claim bitmap is unchanged at every index and every token balance is
unchanged. -/
theorem claim3_invalid_proof (H : Nat → Nat → Nat) (LH : Addr → Nat → Nat)
    (st : AirdropState) (caller recipient : Addr) (amount : Nat)
    (proof : List Nat)
    (hinv : hashFold H (LH recipient amount) proof ≠ st.merkleRoot) :
    callClaimTokens H LH st caller recipient amount proof
        = (st, some ContractError.InvalidProof) ∧
    (∀ i, (callClaimTokens H LH st caller recipient amount proof).1.claimed i
        = st.claimed i) ∧
    (∀ x, (callClaimTokens H LH st caller recipient amount proof).1.balances x
        = st.balances x) := by
  have hmain : callClaimTokens H LH st caller recipient amount proof
      = (st, some ContractError.InvalidProof) := by
    unfold callClaimTokens claimTokens MerkleVerify
    simp [hinv]
  refine ⟨hmain, ?_, ?_⟩
  · intro i; rw [hmain]
  · intro x; rw [hmain]

/-- Witness for C3 at a concrete input: a one-element proof that folds to a
value different from the stored root. -/
theorem claim3_invalid_proof_witness :
    hashFold cH (cLH ['b'] 5) [7]
        ≠ (AirdropState.mk ['o'] ['s'] 12345 (fun _ => false) (fun _ => 50)).merkleRoot ∧
    callClaimTokens cH cLH
        (AirdropState.mk ['o'] ['s'] 12345 (fun _ => false) (fun _ => 50))
        ['c'] ['b'] 5 [7]
      = (AirdropState.mk ['o'] ['s'] 12345 (fun _ => false) (fun _ => 50),
         some ContractError.InvalidProof) :=
  ⟨by decide,
   (claim3_invalid_proof cH cLH
      (AirdropState.mk ['o'] ['s'] 12345 (fun _ => false) (fun _ => 50))
      ['c'] ['b'] 5 [7] (by decide)).1⟩

/-- C2: for a valid (recipient, amount, proof) triple — proof folding to the
stored root, index not yet claimed, the distributing account funded, and the
recipient distinct from it — the first `claimTokens` call succeeds and
transfers exactly `amount` to the recipient, and a second call with the
identical arguments fails with `AlreadyClaimed` ("Tokens already claimed")
and transfers nothing further: the same leaf is never paid twice. -/
theorem claim2_idempotence (H : Nat → Nat → Nat) (LH : Addr → Nat → Nat)
    (st : AirdropState) (caller caller2 recipient : Addr) (amount : Nat)
    (proof : List Nat)
    (hvalid : hashFold H (LH recipient amount) proof = st.merkleRoot)
    (hunclaimed : st.claimed (indexFoldA H (LH recipient amount) 0 proof) = false)
    (hfunds : amount ≤ st.balances st.sender)
    (hnr : recipient ≠ st.sender) :
    ∃ st2, claimTokens H LH st caller recipient amount proof = Except.ok st2 ∧
      st2.balances recipient = st.balances recipient + amount ∧
      callClaimTokens H LH st2 caller2 recipient amount proof
        = (st2, some ContractError.AlreadyClaimed) := by
  have hns : ¬ (recipient = st.sender) := hnr
  refine ⟨⟨st.owner, st.sender, st.merkleRoot,
    fun j => if j = indexFoldA H (LH recipient amount) 0 proof then true
             else st.claimed j,
    fun x => if x = st.sender then (if x = recipient then st.balances x
                                    else st.balances x - amount)
             else if x = recipient then st.balances x + amount
             else st.balances x⟩, ?_, ?_, ?_⟩
  · unfold claimTokens MerkleVerify isClaimed transferTokens
    simp [hvalid, hunclaimed, hfunds]
  · simp [hns]
  · unfold callClaimTokens claimTokens MerkleVerify isClaimed
    simp [hvalid]

/-- Witness for C2 at a concrete input: one leaf, a one-element proof, the
store seeded with the folded root. -/
theorem claim2_idempotence_witness :
    ∃ st2, claimTokens cH cLH
        (AirdropState.mk ['o'] ['s'] (hashFold cH (cLH ['b'] 5) [7])
          (fun _ => false) (fun _ => 50))
        ['c'] ['b'] 5 [7] = Except.ok st2 ∧
      st2.balances ['b']
        = (AirdropState.mk ['o'] ['s'] (hashFold cH (cLH ['b'] 5) [7])
            (fun _ => false) (fun _ => 50)).balances ['b'] + 5 ∧
      callClaimTokens cH cLH st2 ['d'] ['b'] 5 [7]
        = (st2, some ContractError.AlreadyClaimed) :=
  claim2_idempotence cH cLH
    (AirdropState.mk ['o'] ['s'] (hashFold cH (cLH ['b'] 5) [7])
      (fun _ => false) (fun _ => 50))
    ['c'] ['d'] ['b'] 5 [7] rfl rfl (by decide) (by decide)

/-- C9: for a valid (recipient, amount, proof), `claimTokens` behaves
identically for every caller — any account may trigger the claim — and on
success `amount` moves from the configured `sender` account to `recipient`,
the proven address; the balance of any account other than `sender` and
`recipient` (in particular any third-party caller) is unchanged. -/
theorem claim9_any_caller (H : Nat → Nat → Nat) (LH : Addr → Nat → Nat)
    (st : AirdropState) (c1 c2 recipient : Addr) (amount : Nat)
    (proof : List Nat)
    (hvalid : hashFold H (LH recipient amount) proof = st.merkleRoot)
    (hunclaimed : st.claimed (indexFoldA H (LH recipient amount) 0 proof) = false)
    (hfunds : amount ≤ st.balances st.sender)
    (hnr : recipient ≠ st.sender) :
    claimTokens H LH st c1 recipient amount proof
      = claimTokens H LH st c2 recipient amount proof ∧
    ∃ st2, claimTokens H LH st c1 recipient amount proof = Except.ok st2 ∧
      st2.balances recipient = st.balances recipient + amount ∧
      st2.balances st.sender = st.balances st.sender - amount ∧
      ∀ x, x ≠ recipient → x ≠ st.sender → st2.balances x = st.balances x := by
  have hns : ¬ (recipient = st.sender) := hnr
  have hss : ¬ (st.sender = recipient) := fun h => hnr h.symm
  refine ⟨rfl, ⟨st.owner, st.sender, st.merkleRoot,
    fun j => if j = indexFoldA H (LH recipient amount) 0 proof then true
             else st.claimed j,
    fun x => if x = st.sender then (if x = recipient then st.balances x
                                    else st.balances x - amount)
             else if x = recipient then st.balances x + amount
             else st.balances x⟩, ?_, ?_, ?_, ?_⟩
  · unfold claimTokens MerkleVerify isClaimed transferTokens
    simp [hvalid, hunclaimed, hfunds]
  · simp [hns]
  · simp [hss]
  · intro x hxr hxs
    simp [hxr, hxs]

/-- Witness for C9 at a concrete input. -/
theorem claim9_any_caller_witness :
    claimTokens cH cLH
        (AirdropState.mk ['o'] ['s'] (hashFold cH (cLH ['b'] 5) [7])
          (fun _ => false) (fun _ => 50))
        ['c'] ['b'] 5 [7]
      = claimTokens cH cLH
        (AirdropState.mk ['o'] ['s'] (hashFold cH (cLH ['b'] 5) [7])
          (fun _ => false) (fun _ => 50))
        ['z'] ['b'] 5 [7] ∧
    ∃ st2, claimTokens cH cLH
        (AirdropState.mk ['o'] ['s'] (hashFold cH (cLH ['b'] 5) [7])
          (fun _ => false) (fun _ => 50))
        ['c'] ['b'] 5 [7] = Except.ok st2 ∧
      st2.balances ['b'] = 50 + 5 ∧
      st2.balances ['s'] = 50 - 5 ∧
      ∀ x, x ≠ ['b'] → x ≠ ['s'] → st2.balances x = 50 :=
  claim9_any_caller cH cLH
    (AirdropState.mk ['o'] ['s'] (hashFold cH (cLH ['b'] 5) [7])
      (fun _ => false) (fun _ => 50))
    ['c'] ['z'] ['b'] 5 [7] rfl rfl (by decide) (by decide)

/-- C10 counterexample: the claim asserts that after ANY successful
`setMerkleRoot` call every subsequent call reverts. At the concrete state
with root 0, the owner's call `setMerkleRoot(0)` succeeds (the guard only
checks the CURRENT root), and the subsequent call `setMerkleRoot(5)` also
succeeds instead of reverting. -/
theorem claim10_counterexample :
    setMerkleRoot
        (AirdropState.mk ['o'] ['s'] 0 (fun _ => false) (fun _ => 0)) ['o'] 0
      = Except.ok
        (AirdropState.mk ['o'] ['s'] 0 (fun _ => false) (fun _ => 0)) ∧
    setMerkleRoot
        (AirdropState.mk ['o'] ['s'] 0 (fun _ => false) (fun _ => 0)) ['o'] 5
      = Except.ok
        (AirdropState.mk ['o'] ['s'] 5 (fun _ => false) (fun _ => 0)) := by
  constructor <;> rfl

/-- C10 (amended): `setMerkleRoot` succeeds only when called by the owner
while the stored root is zero, and then stores the requested root; after a
successful call with a NONZERO root every subsequent `setMerkleRoot` call
reverts; and no `claimTokens` call ever changes the stored root — so once
the root is nonzero it never changes again. (A successful call storing zero
leaves further calls enabled; that is the counterexample to the claim as
stated.) -/
theorem claim10_amended (H : Nat → Nat → Nat) (LH : Addr → Nat → Nat)
    (st : AirdropState) (caller caller2 recipient : Addr)
    (newRoot newRoot2 amount : Nat) (proof : List Nat) :
    (∀ st2, setMerkleRoot st caller newRoot = Except.ok st2 →
      caller = st.owner ∧ st.merkleRoot = 0 ∧ st2.merkleRoot = newRoot) ∧
    (∀ st2, setMerkleRoot st caller newRoot = Except.ok st2 →
      newRoot ≠ 0 →
      ∀ st3, setMerkleRoot st2 caller2 newRoot2 ≠ Except.ok st3) ∧
    (∀ st2, claimTokens H LH st caller recipient amount proof = Except.ok st2 →
      st2.merkleRoot = st.merkleRoot) := by
  refine ⟨?_, ?_, ?_⟩
  · intro st2 hok
    unfold setMerkleRoot at hok
    by_cases hc : caller = st.owner
    · simp only [hc, ne_eq, not_true_eq_false, if_false, ite_not] at hok
      by_cases hz : st.merkleRoot = 0
      · simp only [hz, if_pos rfl] at hok
        refine ⟨hc, hz, ?_⟩
        cases hok
        rfl
      · simp [hz] at hok
    · simp [hc] at hok
  · intro st2 hok hnz st3 hok2
    have hroot : st2.merkleRoot = newRoot := by
      unfold setMerkleRoot at hok
      by_cases hc : caller = st.owner
      · by_cases hz : st.merkleRoot = 0
        · simp only [hc, ne_eq, not_true_eq_false, if_false, ite_not, hz,
            if_pos rfl] at hok
          cases hok
          rfl
        · simp [hc, hz] at hok
      · simp [hc] at hok
    unfold setMerkleRoot at hok2
    by_cases hc2 : caller2 = st2.owner
    · rw [hroot] at hok2
      simp [hc2, hnz] at hok2
    · simp [hc2] at hok2
  · intro st2 hok
    unfold claimTokens at hok
    by_cases hv : (MerkleVerify H proof st.merkleRoot (LH recipient amount)).1
    · simp only [hv, Bool.not_true, if_false, ite_false] at hok
      by_cases hcl : isClaimed st (MerkleVerify H proof st.merkleRoot (LH recipient amount)).2
      · simp [hcl] at hok
      · simp only [hcl, if_false, ite_false] at hok
        cases htr : transferTokens st.balances st.sender recipient amount with
        | none => rw [htr] at hok; cases hok
        | some bal =>
          rw [htr] at hok
          cases hok
          rfl
    · simp [hv] at hok

/-- Witness for C10's amended theorem at a concrete input: a successful
owner call on a zero root stores the new root, a nonzero stored root makes
the next call revert, and a successful claim leaves the root unchanged. -/
theorem claim10_amended_witness :
    (∀ st2, setMerkleRoot
        (AirdropState.mk ['o'] ['s'] 0 (fun _ => false) (fun _ => 0)) ['o'] 9
        = Except.ok st2 →
      (['o'] : Addr) = ['o'] ∧ (0 : Nat) = 0 ∧ st2.merkleRoot = 9) ∧
    (∀ st2, setMerkleRoot
        (AirdropState.mk ['o'] ['s'] 0 (fun _ => false) (fun _ => 0)) ['o'] 9
        = Except.ok st2 →
      (9 : Nat) ≠ 0 →
      ∀ st3, setMerkleRoot st2 ['o'] 11 ≠ Except.ok st3) ∧
    (∀ st2, claimTokens cH cLH
        (AirdropState.mk ['o'] ['s'] 0 (fun _ => false) (fun _ => 0))
        ['o'] ['b'] 5 [7] = Except.ok st2 →
      st2.merkleRoot
        = (AirdropState.mk ['o'] ['s'] 0 (fun _ => false) (fun _ => 0)).merkleRoot) :=
  claim10_amended cH cLH
    (AirdropState.mk ['o'] ['s'] 0 (fun _ => false) (fun _ => 0))
    ['o'] ['o'] ['b'] 9 11 5 [7]

/-- C7: when the shard selected by an address's prefix (whether cached or
freshly fetched) has no entry for the address, `Prover.getProof` fails with
`NotFound` — a signalled failure, not a successful return — and a
subsequent query for any address living in a different shard returns
exactly what it would have returned before the failed query: other shards
are unaffected. -/
theorem claim7_not_found (H : Nat → Nat → Nat) (LH : Addr → Nat → Nat)
    (p : Prover) (a b : Addr) (shard : ShardFile)
    (hshard : klookup (shardIdOf p.shardNybbles a) p.cache = some shard ∨
      (klookup (shardIdOf p.shardNybbles a) p.cache = none ∧
        p.fetcher (shardIdOf p.shardNybbles a) = some shard))
    (habsent : alookup a shard.entries = none)
    (hb : shardIdOf p.shardNybbles b ≠ shardIdOf p.shardNybbles a) :
    (proverGetProof H LH p a).1 = Except.error ProverFailure.notFound ∧
    (proverGetProof H LH (proverGetProof H LH p a).2 b).1
      = (proverGetProof H LH p b).1 := by
  have hafter : (proverGetProof H LH p a).2.fetcher = p.fetcher ∧
      (proverGetProof H LH p a).2.shardNybbles = p.shardNybbles ∧
      klookup (shardIdOf p.shardNybbles b) (proverGetProof H LH p a).2.cache
        = klookup (shardIdOf p.shardNybbles b) p.cache := by
    unfold proverGetProof
    dsimp only
    cases hc : klookup (shardIdOf p.shardNybbles a) p.cache with
    | some sh => exact ⟨rfl, rfl, rfl⟩
    | none =>
      cases hf : p.fetcher (shardIdOf p.shardNybbles a) with
      | none => exact ⟨rfl, rfl, rfl⟩
      | some sh =>
        refine ⟨rfl, rfl, ?_⟩
        show klookup (shardIdOf p.shardNybbles b)
            (p.cache ++ [(shardIdOf p.shardNybbles a, sh)])
          = klookup (shardIdOf p.shardNybbles b) p.cache
        rw [klookup_append]
        have h1 : klookup (shardIdOf p.shardNybbles b)
            [(shardIdOf p.shardNybbles a, sh)] = none := by
          have hba : ¬ (shardIdOf p.shardNybbles a = shardIdOf p.shardNybbles b) :=
            fun h => hb h.symm
          simp [klookup, hba]
        rw [h1]
        cases klookup (shardIdOf p.shardNybbles b) p.cache <;> rfl
  constructor
  · rcases hshard with hc | ⟨hc, hf⟩
    · unfold proverGetProof
      dsimp only
      rw [hc]
      simp [habsent]
    · unfold proverGetProof
      dsimp only
      rw [hc, hf]
      simp [habsent]
  · rcases hafter with ⟨hfe, hsn, hca⟩
    revert hfe hsn hca
    generalize (proverGetProof H LH p a).2 = p2
    intro hfe hsn hca
    unfold proverGetProof
    dsimp only
    rw [hsn, hfe, hca]
    cases klookup (shardIdOf p.shardNybbles b) p.cache with
    | some sh => rfl
    | none => cases p.fetcher (shardIdOf p.shardNybbles b) <;> rfl

/-- Witness for C7 at a concrete prover: shard `a` holds only address `a1`,
so querying `a2` fails with `NotFound`, and a query in shard `b` is
unaffected by the failed query. -/
theorem claim7_not_found_witness :
    (proverGetProof cH cLH
        (Prover.mk
          (fun sid => if sid = ['a']
            then some (ShardFile.mk [] [(['a', '1'], Entry.mk 5)]) else none)
          1 0 0 [])
        ['a', '2']).1 = Except.error ProverFailure.notFound ∧
    (proverGetProof cH cLH
        (proverGetProof cH cLH
          (Prover.mk
            (fun sid => if sid = ['a']
              then some (ShardFile.mk [] [(['a', '1'], Entry.mk 5)]) else none)
            1 0 0 [])
          ['a', '2']).2
        ['b', '1']).1
      = (proverGetProof cH cLH
          (Prover.mk
            (fun sid => if sid = ['a']
              then some (ShardFile.mk [] [(['a', '1'], Entry.mk 5)]) else none)
            1 0 0 [])
          ['b', '1']).1 :=
  claim7_not_found cH cLH
    (Prover.mk
      (fun sid => if sid = ['a']
        then some (ShardFile.mk [] [(['a', '1'], Entry.mk 5)]) else none)
      1 0 0 [])
    ['a', '2'] ['b', '1'] (ShardFile.mk [] [(['a', '1'], Entry.mk 5)])
    (Or.inr ⟨rfl, by decide⟩) (by decide) (by decide)

theorem build_fst_eq (n : Nat) (entries : List (Addr × Entry)) :
    (build H LH n entries).1 =
      ⟨mtRoot H (rootLeavesOf H LH n entries), n,
       (entries.map (fun p => p.2.balance)).sum⟩ := by
  unfold build rootLeavesOf
  dsimp only
  rw [buildShards_eq_canon]
  unfold canonShards
  rw [List.map_map]
  rfl

theorem build_snd_eq (n : Nat) (entries : List (Addr × Entry)) :
    (build H LH n entries).2 = (shardKeys n entries).map (fun k =>
      (k, ShardFile.mk
        (mtProofFor H (rootLeavesOf H LH n entries)
          (mtRoot H ((bucket n entries k).map (leafEntryHash LH))))
        (fromEntries (bucket n entries k)))) := by
  unfold build rootLeavesOf
  dsimp only
  rw [buildShards_eq_canon]
  unfold canonShards
  rw [List.map_map, List.map_map]
  rfl

/-- Looking a shard key up among the persisted files of a build. -/
theorem build_files_lookup (n : Nat) (entries : List (Addr × Entry))
    (k : List Char) (hk : k ∈ shardKeys n entries) :
    klookup k (build H LH n entries).2 = some (ShardFile.mk
      (mtProofFor H (rootLeavesOf H LH n entries)
        (mtRoot H ((bucket n entries k).map (leafEntryHash LH))))
      (fromEntries (bucket n entries k))) := by
  rw [build_snd_eq]
  exact klookup_map_tabulate
    (fun k => ShardFile.mk
      (mtProofFor H (rootLeavesOf H LH n entries)
        (mtRoot H ((bucket n entries k).map (leafEntryHash LH))))
      (fromEntries (bucket n entries k)))
    (shardKeys n entries) k hk

theorem mem_shardKeys_of_mem (n : Nat) {entries : List (Addr × Entry)}
    {a : Addr} {e : Entry} (hmem : (a, e) ∈ entries) :
    shardIdOf n a ∈ shardKeys n entries := by
  unfold shardKeys
  rw [mem_firstDedup]
  exact List.mem_map.mpr ⟨(a, e), hmem, rfl⟩

theorem mem_bucket_of_mem (n : Nat) {entries : List (Addr × Entry)}
    {a : Addr} {e : Entry} (hmem : (a, e) ∈ entries) :
    (a, e) ∈ bucket n entries (shardIdOf n a) := by
  unfold bucket
  rw [List.mem_filter]
  exact ⟨hmem, by simp⟩

/-- For a duplicate-free entry list, `getProof` on the prover rebuilt from
the persisted build output returns the entry together with the
shard-internal path concatenated with the shard's root-tree path. -/
theorem proverGetProof_build (n : Nat) (entries : List (Addr × Entry))
    (a : Addr) (e : Entry)
    (hnd : (entries.map Prod.fst).Nodup) (hmem : (a, e) ∈ entries) :
    (proverGetProof H LH
        (fromFiles (build H LH n entries).1 (build H LH n entries).2) a).1
      = Except.ok (e,
          mtProofFor H ((bucket n entries (shardIdOf n a)).map (leafEntryHash LH))
            (LH a e.balance)
          ++ mtProofFor H (rootLeavesOf H LH n entries)
              (mtRoot H ((bucket n entries (shardIdOf n a)).map (leafEntryHash LH)))) := by
  have hkey : shardIdOf n a ∈ shardKeys n entries := mem_shardKeys_of_mem n hmem
  have hbucket_nd : ((bucket n entries (shardIdOf n a)).map Prod.fst).Nodup :=
    List.Nodup.sublist (List.Sublist.map Prod.fst (List.filter_sublist entries)) hnd
  have hfe : fromEntries (bucket n entries (shardIdOf n a))
      = bucket n entries (shardIdOf n a) := fromEntries_eq_self _ hbucket_nd
  have hlook : alookup a (bucket n entries (shardIdOf n a)) = some e :=
    alookup_eq_of_mem_nodup _ a e hbucket_nd (mem_bucket_of_mem n hmem)
  have hfile := build_files_lookup H LH n entries (shardIdOf n a) hkey
  rw [build_fst_eq]
  unfold proverGetProof fromFiles
  dsimp only [klookup]
  rw [hfile]
  dsimp only
  rw [hfe, hlook]

/-- C8 counterexample: with the duplicate-address input
`[(a, balance 1), (a, balance 2)]` the claim's "only the later entry
contributes a leaf to the shard's Merkle tree" is false — the bucketing
loop pushes BOTH pairs, so the build-time shard tree (and hence the
manifest root) is built over both leaves, not over the later one alone.
The persisted entries object does map `a` to the later entry only. -/
theorem claim8_counterexample :
    (build cH cLH 1 [(['a'], Entry.mk 1), (['a'], Entry.mk 2)]).1.root
      = mtRoot cH [cLH ['a'] 1, cLH ['a'] 2] ∧
    (build cH cLH 1 [(['a'], Entry.mk 1), (['a'], Entry.mk 2)]).1.root
      ≠ mtRoot cH [cLH ['a'] 2] ∧
    (build cH cLH 1 [(['a'], Entry.mk 1), (['a'], Entry.mk 2)]).2
      = [(['a'], ShardFile.mk [] [(['a'], Entry.mk 2)])] := by
  refine ⟨by decide, by decide, by decide⟩

/-- C8 (amended): when the entry list contains two pairs with an identical
address, the later pair overwrites the earlier only in the persisted shard
file's entries object — not during bucketing: the bucketing loop keeps every
occurrence, each pair in the input (duplicates included) contributes its own
leaf to the build-time shard tree, while the persisted file maps each
address to the entry of the LAST pair carrying it. -/
theorem claim8_amended (H : Nat → Nat → Nat) (LH : Addr → Nat → Nat)
    (n : Nat) (entries : List (Addr × Entry)) (a : Addr) (e : Entry)
    (hmem : (a, e) ∈ entries) :
    leafEntryHash LH (a, e)
      ∈ (bucket n entries (shardIdOf n a)).map (leafEntryHash LH) ∧
    ∃ file, klookup (shardIdOf n a) (build H LH n entries).2 = some file ∧
      file.entries = fromEntries (bucket n entries (shardIdOf n a)) ∧
      alookup a file.entries
        = alookup a (bucket n entries (shardIdOf n a)).reverse := by
  refine ⟨List.mem_map_of_mem _ (mem_bucket_of_mem n hmem), ?_⟩
  refine ⟨_, build_files_lookup H LH n entries (shardIdOf n a)
    (mem_shardKeys_of_mem n hmem), rfl, ?_⟩
  exact fromEntries_alookup (bucket n entries (shardIdOf n a)) a

/-- Witness for C8's amended theorem on the duplicate-address input: the
earlier pair's leaf is among the build-time shard leaves, and the file maps
the address to the later entry. -/
theorem claim8_amended_witness :
    leafEntryHash cLH (['a'], Entry.mk 1)
      ∈ (bucket 1 [(['a'], Entry.mk 1), (['a'], Entry.mk 2)]
          (shardIdOf 1 ['a'])).map (leafEntryHash cLH) ∧
    ∃ file, klookup (shardIdOf 1 ['a'])
        (build cH cLH 1 [(['a'], Entry.mk 1), (['a'], Entry.mk 2)]).2
        = some file ∧
      file.entries = fromEntries (bucket 1
        [(['a'], Entry.mk 1), (['a'], Entry.mk 2)] (shardIdOf 1 ['a'])) ∧
      alookup ['a'] file.entries
        = alookup ['a'] (bucket 1
            [(['a'], Entry.mk 1), (['a'], Entry.mk 2)]
            (shardIdOf 1 ['a'])).reverse :=
  claim8_amended cH cLH 1 [(['a'], Entry.mk 1), (['a'], Entry.mk 2)]
    ['a'] (Entry.mk 1) (by decide)

/-- C1 counterexample: with the duplicate-address entry list
`[(a, balance 1), (a, balance 2)]`, the pair `(a, balance 1)` is in the
list, yet the prover built over the persisted files returns the LATER entry
(balance 2), not that entry, and the returned proof folds from the earlier
pair's leaf hash to a value different from the manifest root (the builder
hashed both occurrences into the shard tree while the prover rebuilds the
tree from the deduplicated file). -/
theorem claim1_counterexample :
    ((['a'], Entry.mk 1)
        ∈ [((['a'] : Addr), Entry.mk 1), (['a'], Entry.mk 2)]) ∧
    (proverGetProof cH cLH
        (fromFiles
          (build cH cLH 1 [(['a'], Entry.mk 1), (['a'], Entry.mk 2)]).1
          (build cH cLH 1 [(['a'], Entry.mk 1), (['a'], Entry.mk 2)]).2)
        ['a']).1
      = Except.ok (Entry.mk 2, []) ∧
    Entry.mk 2 ≠ Entry.mk 1 ∧
    hashFold cH (cLH ['a'] 1) []
      ≠ (build cH cLH 1 [(['a'], Entry.mk 1), (['a'], Entry.mk 2)]).1.root := by
  refine ⟨by decide, by decide, by decide, by decide⟩

/-- C1 (amended): for an entry list whose addresses are pairwise distinct,
every (address, entry) pair of the list round-trips: the prover constructed
over the persisted `build` output returns exactly that entry together with
a proof that folds — sorted-pair keccak rule, starting from the leaf hash
of (address, entry.balance), consuming the proof elements in order — to
exactly the root recorded in the manifest. -/
theorem claim1_amended (H : Nat → Nat → Nat) (LH : Addr → Nat → Nat)
    (n : Nat) (entries : List (Addr × Entry)) (a : Addr) (e : Entry)
    (hnd : (entries.map Prod.fst).Nodup)
    (hmem : (a, e) ∈ entries) :
    ∃ proof,
      (proverGetProof H LH
        (fromFiles (build H LH n entries).1 (build H LH n entries).2) a).1
        = Except.ok (e, proof) ∧
      hashFold H (LH a e.balance) proof = (build H LH n entries).1.root := by
  have hkey : shardIdOf n a ∈ shardKeys n entries := mem_shardKeys_of_mem n hmem
  refine ⟨_, proverGetProof_build H LH n entries a e hnd hmem, ?_⟩
  rw [hashFold_append, build_fst_eq]
  have h1 : hashFold H (LH a e.balance)
      (mtProofFor H ((bucket n entries (shardIdOf n a)).map (leafEntryHash LH))
        (LH a e.balance))
      = mtRoot H ((bucket n entries (shardIdOf n a)).map (leafEntryHash LH)) := by
    apply hashFold_mtProofFor
    exact List.mem_map.mpr ⟨(a, e), mem_bucket_of_mem n hmem, rfl⟩
  rw [h1]
  apply hashFold_mtProofFor
  exact List.mem_map.mpr ⟨shardIdOf n a, hkey, rfl⟩

/-- Witness for C1's amended theorem at a concrete two-shard build. -/
theorem claim1_amended_witness :
    ∃ proof,
      (proverGetProof cH cLH
        (fromFiles
          (build cH cLH 1 [(['a'], Entry.mk 1), (['b'], Entry.mk 2)]).1
          (build cH cLH 1 [(['a'], Entry.mk 1), (['b'], Entry.mk 2)]).2)
        ['a']).1
        = Except.ok (Entry.mk 1, proof) ∧
      hashFold cH (cLH ['a'] 1) proof
        = (build cH cLH 1 [(['a'], Entry.mk 1), (['b'], Entry.mk 2)]).1.root :=
  claim1_amended cH cLH 1 [(['a'], Entry.mk 1), (['b'], Entry.mk 2)]
    ['a'] (Entry.mk 1) (by decide) (by decide)

/-- Sorting is invariant under permutation of the input. -/
theorem sortLvs_eq_of_perm {l l' : List Nat} (h : l.Perm l') :
    sortLvs l = sortLvs l' := by
  unfold sortLvs
  exact List.eq_of_perm_of_sorted
    ((List.perm_insertionSort (· ≤ ·) l).trans
      (h.trans (List.perm_insertionSort (· ≤ ·) l').symm))
    (List.sorted_insertionSort (· ≤ ·) l)
    (List.sorted_insertionSort (· ≤ ·) l')

theorem firstDedup_nodup : ∀ l : List (List Char), (firstDedup l).Nodup
  | [] => by simp [firstDedup, firstDedupAux]
  | k :: t => by
    rw [firstDedup_cons]
    refine List.nodup_cons.mpr
      ⟨?_, firstDedup_nodup (t.filter (fun x => decide (x ≠ k)))⟩
    intro hk
    have hm := (mem_firstDedup _ _).mp hk
    rw [List.mem_filter] at hm
    simpa using hm.2
termination_by l => l.length
decreasing_by
  exact Nat.lt_succ_of_le (List.length_filter_le _ t)

theorem klookup_map_tabulate_inv {β : Type} (f : List Char → β) :
    ∀ (ks : List (List Char)) (k : List Char) (v : β),
      klookup k (ks.map (fun x => (x, f x))) = some v → k ∈ ks ∧ v = f k
  | [], k, v, h => by simp [klookup] at h
  | k0 :: t, k, v, h => by
    by_cases hkk : k0 = k
    · subst hkk
      rw [klookup_map_tabulate f (k0 :: t) k0 (List.mem_cons_self _ _)] at h
      injection h with h
      exact ⟨List.mem_cons_self _ _, h.symm⟩
    · simp only [List.map_cons, klookup, if_neg hkk] at h
      obtain ⟨hm, hv⟩ := klookup_map_tabulate_inv f t k v h
      exact ⟨List.mem_cons_of_mem _ hm, hv⟩

/-- C6 counterexample: swapping two same-shard entries of the input is a
permutation of the same entry set, yet the persisted shard files differ
(the `entries` objects serialize in input order), so the outputs are not
byte-identical as the claim states. -/
theorem claim6_counterexample :
    [((['a', '1'] : Addr), Entry.mk 1), (['a', '2'], Entry.mk 2)].Perm
      [(['a', '2'], Entry.mk 2), (['a', '1'], Entry.mk 1)] ∧
    (build cH cLH 1
        [(['a', '1'], Entry.mk 1), (['a', '2'], Entry.mk 2)]).2
      ≠ (build cH cLH 1
        [(['a', '2'], Entry.mk 2), (['a', '1'], Entry.mk 1)]).2 := by
  refine ⟨List.Perm.swap (['a', '2'], Entry.mk 2) (['a', '1'], Entry.mk 1) [], ?_⟩
  decide

/-- C6 (amended): for entry lists with pairwise-distinct addresses that are
permutations of each other, the builds agree on everything
order-insensitive: the manifest (root, shardNybbles, total) is identical,
the shard key sets coincide, and for every common shard key the two
persisted files carry identical root-tree proof arrays and entries objects
that are permutations of each other. Only the serialization ORDER of a
shard file's entries object follows the input order (the counterexample);
identical input lists trivially rebuild byte-identical output, `build`
being a pure function. -/
theorem claim6_amended (H : Nat → Nat → Nat) (LH : Addr → Nat → Nat)
    (n : Nat) (l1 l2 : List (Addr × Entry))
    (hperm : l1.Perm l2) (hnd : (l1.map Prod.fst).Nodup) :
    (build H LH n l1).1 = (build H LH n l2).1 ∧
    (∀ k, k ∈ shardKeys n l1 ↔ k ∈ shardKeys n l2) ∧
    (∀ k f1 f2, klookup k (build H LH n l1).2 = some f1 →
      klookup k (build H LH n l2).2 = some f2 →
      f1.proof = f2.proof ∧ f1.entries.Perm f2.entries) := by
  have hnd2 : (l2.map Prod.fst).Nodup := ((hperm.map Prod.fst).nodup_iff).mp hnd
  have hbp : ∀ k, (bucket n l1 k).Perm (bucket n l2 k) :=
    fun k => hperm.filter _
  have hroots : ∀ k,
      mtRoot H ((bucket n l1 k).map (leafEntryHash LH))
        = mtRoot H ((bucket n l2 k).map (leafEntryHash LH)) := by
    intro k
    unfold mtRoot
    rw [sortLvs_eq_of_perm ((hbp k).map (leafEntryHash LH))]
  have hkeys : ∀ k, k ∈ shardKeys n l1 ↔ k ∈ shardKeys n l2 := by
    intro k
    unfold shardKeys
    rw [mem_firstDedup, mem_firstDedup]
    exact (hperm.map (fun p => shardIdOf n p.1)).mem_iff
  have hkeysperm : (shardKeys n l1).Perm (shardKeys n l2) :=
    (List.perm_ext_iff_of_nodup (firstDedup_nodup _) (firstDedup_nodup _)).mpr hkeys
  have hrlperm : (rootLeavesOf H LH n l1).Perm (rootLeavesOf H LH n l2) := by
    unfold rootLeavesOf
    refine (hkeysperm.map _).trans ?_
    rw [List.map_congr_left (fun k _ => hroots k)]
  have hrl : sortLvs (rootLeavesOf H LH n l1) = sortLvs (rootLeavesOf H LH n l2) :=
    sortLvs_eq_of_perm hrlperm
  refine ⟨?_, hkeys, ?_⟩
  · rw [build_fst_eq, build_fst_eq]
    have hroot : mtRoot H (rootLeavesOf H LH n l1)
        = mtRoot H (rootLeavesOf H LH n l2) := by
      unfold mtRoot
      rw [hrl]
    have htot : (l1.map (fun p => p.2.balance)).sum
        = (l2.map (fun p => p.2.balance)).sum :=
      (hperm.map (fun p => p.2.balance)).sum_eq
    rw [hroot, htot]
  · intro k f1 f2 h1 h2
    rw [build_snd_eq] at h1 h2
    obtain ⟨hk1, hv1⟩ := klookup_map_tabulate_inv _ _ _ _ h1
    obtain ⟨hk2, hv2⟩ := klookup_map_tabulate_inv _ _ _ _ h2
    subst hv1
    subst hv2
    constructor
    · show mtProofFor H (rootLeavesOf H LH n l1) _
        = mtProofFor H (rootLeavesOf H LH n l2) _
      unfold mtProofFor
      rw [hrl, hroots k]
    · show (fromEntries (bucket n l1 k)).Perm (fromEntries (bucket n l2 k))
      have hnb1 : ((bucket n l1 k).map Prod.fst).Nodup := List.Nodup.sublist
        (List.Sublist.map Prod.fst (List.filter_sublist l1)) hnd
      have hnb2 : ((bucket n l2 k).map Prod.fst).Nodup := List.Nodup.sublist
        (List.Sublist.map Prod.fst (List.filter_sublist l2)) hnd2
      rw [fromEntries_eq_self _ hnb1, fromEntries_eq_self _ hnb2]
      exact hbp k

/-- Witness for C6's amended theorem on the concrete swapped pair of
same-shard entries. -/
theorem claim6_amended_witness :
    (build cH cLH 1 [(['a', '1'], Entry.mk 1), (['a', '2'], Entry.mk 2)]).1
      = (build cH cLH 1
          [(['a', '2'], Entry.mk 2), (['a', '1'], Entry.mk 1)]).1 ∧
    (∀ k, k ∈ shardKeys 1 [(['a', '1'], Entry.mk 1), (['a', '2'], Entry.mk 2)]
        ↔ k ∈ shardKeys 1
          [(['a', '2'], Entry.mk 2), (['a', '1'], Entry.mk 1)]) ∧
    (∀ k f1 f2, klookup k (build cH cLH 1
        [(['a', '1'], Entry.mk 1), (['a', '2'], Entry.mk 2)]).2 = some f1 →
      klookup k (build cH cLH 1
        [(['a', '2'], Entry.mk 2), (['a', '1'], Entry.mk 1)]).2 = some f2 →
      f1.proof = f2.proof ∧ f1.entries.Perm f2.entries) :=
  claim6_amended cH cLH 1
    [(['a', '1'], Entry.mk 1), (['a', '2'], Entry.mk 2)]
    [(['a', '2'], Entry.mk 2), (['a', '1'], Entry.mk 1)]
    (List.Perm.swap (['a', '2'], Entry.mk 2) (['a', '1'], Entry.mk 1) [])
    (by decide)

theorem levelsNodupB_congr :
    ∀ (l : List Nat) (f f' : Nat), l.length ≤ f → l.length ≤ f' →
      levelsNodupB H f l = levelsNodupB H f' l
  | [], f, f', _, _ => by cases f <;> cases f' <;> rfl
  | [a], f, f', _, _ => by cases f <;> cases f' <;> rfl
  | a :: b :: rest, f, f', hf, hf' => by
    cases f with
    | zero => simp at hf
    | succ g =>
      cases f' with
      | zero => simp at hf'
      | succ g' =>
        show (decide ((a :: b :: rest).Nodup)
            && levelsNodupB H g (nextLevel H (a :: b :: rest)))
          = (decide ((a :: b :: rest).Nodup)
            && levelsNodupB H g' (nextLevel H (a :: b :: rest)))
        have hlen : (nextLevel H (a :: b :: rest)).length
            = ((a :: b :: rest).length + 1) / 2 := nextLevel_length H _
        rw [levelsNodupB_congr (nextLevel H (a :: b :: rest)) g g'
          (by simp only [List.length_cons] at hf hlen ⊢; omega)
          (by simp only [List.length_cons] at hf' hlen ⊢; omega)]
termination_by l => l.length
decreasing_by
  simp only [nextLevel_length, List.length_cons]; omega

theorem levelsNodup_step {l : List Nat} (h : ¬ l.length ≤ 1) :
    levelsNodup H l = true ↔
      (l.Nodup ∧ levelsNodup H (nextLevel H l) = true) := by
  rcases l with _ | ⟨a, _ | ⟨b, t⟩⟩
  · simp at h
  · simp at h
  · have hstep : levelsNodup H (a :: b :: t)
        = (decide ((a :: b :: t).Nodup)
          && levelsNodupB H (t.length + 1) (nextLevel H (a :: b :: t))) := rfl
    have hcongr : levelsNodupB H (t.length + 1) (nextLevel H (a :: b :: t))
        = levelsNodup H (nextLevel H (a :: b :: t)) := by
      unfold levelsNodup
      refine levelsNodupB_congr H _ _ _ ?_ (Nat.le_refl _)
      rw [nextLevel_length]
      simp
      omega
    rw [hstep, hcongr, Bool.and_eq_true, decide_eq_true_eq]

theorem levelsNodup_nodup {l : List Nat} (h : levelsNodup H l = true) :
    l.Nodup := by
  by_cases h2 : l.length ≤ 1
  · rcases l with _ | ⟨a, _ | ⟨b, t⟩⟩
    · exact List.nodup_nil
    · exact List.nodup_singleton a
    · simp at h2
  · exact ((levelsNodup_step H h2).mp h).1

/-- The simultaneous fold splits over a proof concatenation. -/
theorem indexFoldA_append :
    ∀ (p q : List Nat) (acc idx : Nat),
      indexFoldA H acc idx (p ++ q)
        = indexFoldA H (hashFold H acc p) (indexFoldA H acc idx p) q
  | [], q, acc, idx => rfl
  | e :: rest, q, acc, idx =>
    indexFoldA_append rest q (hashSortedPair H acc e)
      (2 * idx + if acc ≤ e then 0 else 1)

/-- At a level with at least two nodes, the verifier index of position `i`
decomposes into a top bit `b` (0 or 1) over the index computed one level
up; a promoted node contributes no bit (`b = 0` and no length increase). -/
theorem indexFold_proofOf_decomp (l : List Nat) (i : Nat)
    (hi : i < l.length) (h2 : ¬ l.length ≤ 1) :
    ∃ b : Nat, b ≤ 1 ∧
      indexFoldA H (l.getD i 0) 0 (proofOf H l i)
        = b * 2 ^ (proofOf H (nextLevel H l) (i / 2)).length
          + indexFoldA H ((nextLevel H l).getD (i / 2) 0) 0
              (proofOf H (nextLevel H l) (i / 2)) ∧
      ((proofOf H l i).length
          = (proofOf H (nextLevel H l) (i / 2)).length + 1 ∨
       ((proofOf H l i).length
          = (proofOf H (nextLevel H l) (i / 2)).length ∧ b = 0)) := by
  rw [proofOf_step H h2 i]
  by_cases hodd : i % 2 = 1
  · have hpj : (if i % 2 = 1 then i - 1 else i + 1) = i - 1 := by simp [hodd]
    have hlt : i - 1 < l.length := by omega
    rw [hpj, if_pos hlt]
    refine ⟨(if l.getD i 0 ≤ l.getD (i - 1) 0 then 0 else 1), by split <;> omega,
      ?_, ?_⟩
    · rw [indexFoldA_append]
      have hacc : hashFold H (l.getD i 0) [l.getD (i - 1) 0]
          = (nextLevel H l).getD (i / 2) 0 := by
        have hk : 2 * (i / 2) = i - 1 := by omega
        rw [nextLevel_getD_pair H l (i / 2) (by omega), hk]
        have e1 : i - 1 + 1 = i := by omega
        rw [e1]
        simp [hashFold, hashSortedPair_comm]
      have hidx : indexFoldA H (l.getD i 0) 0 [l.getD (i - 1) 0]
          = (if l.getD i 0 ≤ l.getD (i - 1) 0 then 0 else 1) := by
        simp [indexFoldA]
      rw [hacc, hidx, indexFoldA_linear]
    · left; simp
  · by_cases hsib : (if i % 2 = 1 then i - 1 else i + 1) < l.length
    · have hpj : (if i % 2 = 1 then i - 1 else i + 1) = i + 1 := by simp [hodd]
      rw [if_pos hsib]
      rw [hpj] at hsib
      rw [hpj]
      refine ⟨(if l.getD i 0 ≤ l.getD (i + 1) 0 then 0 else 1), by split <;> omega,
        ?_, ?_⟩
      · rw [indexFoldA_append]
        have hacc : hashFold H (l.getD i 0) [l.getD (i + 1) 0]
            = (nextLevel H l).getD (i / 2) 0 := by
          have hk : 2 * (i / 2) = i := by omega
          rw [nextLevel_getD_pair H l (i / 2) (by omega), hk]
          simp [hashFold]
        have hidx : indexFoldA H (l.getD i 0) 0 [l.getD (i + 1) 0]
            = (if l.getD i 0 ≤ l.getD (i + 1) 0 then 0 else 1) := by
          simp [indexFoldA]
        rw [hacc, hidx, indexFoldA_linear]
      · left; simp
    · have hpj : (if i % 2 = 1 then i - 1 else i + 1) = i + 1 := by simp [hodd]
      rw [if_neg hsib]
      rw [hpj] at hsib
      have hlast : 2 * (i / 2) + 1 = l.length := by omega
      have hk : 2 * (i / 2) = i := by omega
      have hprom := nextLevel_getD_promoted H l (i / 2) hlast
      rw [hk] at hprom
      refine ⟨0, le_refl 0 |>.trans (by omega), ?_, Or.inr ⟨by simp, rfl⟩⟩
      rw [← hprom]
      simp

/-- Two index values that agree below the top bit but differ in it are
distinct modulo twice the bit's weight. -/
theorem bit_mod_ne {E u : Nat} (hE : 0 < E) (hu : u < E) (b1 b2 : Nat)
    (hb1 : b1 ≤ 1) (hb2 : b2 ≤ 1) (hne : b1 ≠ b2) :
    (b1 * E + u) % (2 * E) ≠ (b2 * E + u) % (2 * E) := by
  interval_cases b1 <;> interval_cases b2 <;> first
    | exact absurd rfl hne
    | (intro heq
       rw [Nat.mod_eq_of_lt (by omega), Nat.mod_eq_of_lt (by omega)] at heq
       omega)

/-- Verifier indices of two sibling leaves differ modulo `2 ^` their common
proof length: the sibling step contributes opposite bits. -/
theorem treeIndex_sibling_ne (l : List Nat) (t : Nat)
    (h1 : 2 * t + 1 < l.length) (hnd : l.Nodup) :
    indexFoldA H (l.getD (2 * t) 0) 0 (proofOf H l (2 * t))
        % 2 ^ (min (proofOf H l (2 * t)).length (proofOf H l (2 * t + 1)).length)
      ≠ indexFoldA H (l.getD (2 * t + 1) 0) 0 (proofOf H l (2 * t + 1))
        % 2 ^ (min (proofOf H l (2 * t)).length (proofOf H l (2 * t + 1)).length) := by
  have h2 : ¬ l.length ≤ 1 := by omega
  have hi : 2 * t < l.length := by omega
  have e1 : 2 * t / 2 = t := by omega
  have e2 : (2 * t + 1) / 2 = t := by omega
  have hxy : l.getD (2 * t) 0 ≠ l.getD (2 * t + 1) 0 := by
    intro heq
    rw [List.getD_eq_getElem l 0 hi, List.getD_eq_getElem l 0 h1] at heq
    have := (List.Nodup.getElem_inj_iff hnd).mp heq
    omega
  have hpi : proofOf H l (2 * t)
      = [l.getD (2 * t + 1) 0] ++ proofOf H (nextLevel H l) t := by
    rw [proofOf_step H h2]
    have hc : (if (2 * t) % 2 = 1 then 2 * t - 1 else 2 * t + 1) = 2 * t + 1 := by
      have : (2 * t) % 2 = 0 := by omega
      simp [this]
    rw [hc, if_pos h1, e1]
  have hpj : proofOf H l (2 * t + 1)
      = [l.getD (2 * t) 0] ++ proofOf H (nextLevel H l) t := by
    rw [proofOf_step H h2]
    have hc : (if (2 * t + 1) % 2 = 1 then 2 * t + 1 - 1 else 2 * t + 1 + 1)
        = 2 * t := by
      have : (2 * t + 1) % 2 = 1 := by omega
      simp [this]
    rw [hc, if_pos hi, e2]
  have hx : indexFoldA H (l.getD (2 * t) 0) 0
      ([l.getD (2 * t + 1) 0] ++ proofOf H (nextLevel H l) t)
      = (if l.getD (2 * t) 0 ≤ l.getD (2 * t + 1) 0 then 0 else 1)
          * 2 ^ (proofOf H (nextLevel H l) t).length
        + indexFoldA H
            (hashSortedPair H (l.getD (2 * t) 0) (l.getD (2 * t + 1) 0)) 0
            (proofOf H (nextLevel H l) t) := by
    simp only [List.singleton_append, indexFoldA]
    rw [indexFoldA_linear]
    simp
  have hy : indexFoldA H (l.getD (2 * t + 1) 0) 0
      ([l.getD (2 * t) 0] ++ proofOf H (nextLevel H l) t)
      = (if l.getD (2 * t + 1) 0 ≤ l.getD (2 * t) 0 then 0 else 1)
          * 2 ^ (proofOf H (nextLevel H l) t).length
        + indexFoldA H
            (hashSortedPair H (l.getD (2 * t) 0) (l.getD (2 * t + 1) 0)) 0
            (proofOf H (nextLevel H l) t) := by
    simp only [List.singleton_append, indexFoldA]
    rw [indexFoldA_linear,
      hashSortedPair_comm H (l.getD (2 * t + 1) 0) (l.getD (2 * t) 0)]
    simp
  have hu : indexFoldA H
      (hashSortedPair H (l.getD (2 * t) 0) (l.getD (2 * t + 1) 0)) 0
      (proofOf H (nextLevel H l) t)
      < 2 ^ (proofOf H (nextLevel H l) t).length := by
    have := indexFoldA_lt H (proofOf H (nextLevel H l) t)
      (hashSortedPair H (l.getD (2 * t) 0) (l.getD (2 * t + 1) 0)) 0
    simpa using this
  rw [hpi, hpj, hx, hy]
  simp only [List.singleton_append, List.length_cons, Nat.min_self]
  have hpow : (2 : Nat) ^ ((proofOf H (nextLevel H l) t).length + 1)
      = 2 * 2 ^ (proofOf H (nextLevel H l) t).length := by
    rw [pow_succ]; ring
  rw [hpow]
  apply bit_mod_ne (Nat.pos_pow_of_pos _ (by omega)) hu
  · split <;> omega
  · split <;> omega
  · rcases Nat.lt_trichotomy (l.getD (2 * t) 0) (l.getD (2 * t + 1) 0)
      with hlt | heq | hgt
    · have ha : l.getD (2 * t) 0 ≤ l.getD (2 * t + 1) 0 := Nat.le_of_lt hlt
      have hb : ¬ (l.getD (2 * t + 1) 0 ≤ l.getD (2 * t) 0) := Nat.not_le.mpr hlt
      rw [if_pos ha, if_neg hb]
      omega
    · exact absurd heq hxy
    · have ha : l.getD (2 * t + 1) 0 ≤ l.getD (2 * t) 0 := Nat.le_of_lt hgt
      have hb : ¬ (l.getD (2 * t) 0 ≤ l.getD (2 * t + 1) 0) := Nat.not_le.mpr hgt
      rw [if_neg hb, if_pos ha]
      omega

/-- Core injectivity of the verifier's positional index: in a tree whose
levels are all duplicate-free, two distinct leaf positions yield indices
that differ even modulo `2 ^` the shorter of the two proof lengths. -/
theorem treeIndex_mod_ne (l : List Nat) :
    ∀ (i j : Nat), i < l.length → j < l.length → i ≠ j →
      levelsNodup H l = true →
      indexFoldA H (l.getD i 0) 0 (proofOf H l i)
          % 2 ^ (min (proofOf H l i).length (proofOf H l j).length)
        ≠ indexFoldA H (l.getD j 0) 0 (proofOf H l j)
          % 2 ^ (min (proofOf H l i).length (proofOf H l j).length) := by
  intro i j hi hj hij hln
  by_cases h2 : l.length ≤ 1
  · omega
  · obtain ⟨hnd, hlnext⟩ := (levelsNodup_step H h2).mp hln
    by_cases hsame : i / 2 = j / 2
    · rcases Nat.lt_or_ge i j with hlt | hge
      · obtain ⟨t, rfl⟩ : ∃ t, i = 2 * t := ⟨i / 2, by omega⟩
        obtain rfl : j = 2 * t + 1 := by omega
        exact treeIndex_sibling_ne H l t hj hnd
      · have hgt : j < i := by omega
        obtain ⟨t, rfl⟩ : ∃ t, j = 2 * t := ⟨j / 2, by omega⟩
        obtain rfl : i = 2 * t + 1 := by omega
        rw [Nat.min_comm]
        exact (treeIndex_sibling_ne H l t hi hnd).symm
    · obtain ⟨b1, hb1, he1, hl1⟩ := indexFold_proofOf_decomp H l i hi h2
      obtain ⟨b2, hb2, he2, hl2⟩ := indexFold_proofOf_decomp H l j hj h2
      have hhi : i / 2 < (nextLevel H l).length := by
        rw [nextLevel_length]; omega
      have hhj : j / 2 < (nextLevel H l).length := by
        rw [nextLevel_length]; omega
      have ih := treeIndex_mod_ne (nextLevel H l) (i / 2) (j / 2) hhi hhj hsame hlnext
      intro heq
      apply ih
      have hL1 : (proofOf H (nextLevel H l) (i / 2)).length ≤ (proofOf H l i).length := by
        rcases hl1 with h | ⟨h, _⟩ <;> omega
      have hL2 : (proofOf H (nextLevel H l) (j / 2)).length ≤ (proofOf H l j).length := by
        rcases hl2 with h | ⟨h, _⟩ <;> omega
      have hmM : min (proofOf H (nextLevel H l) (i / 2)).length
            (proofOf H (nextLevel H l) (j / 2)).length
          ≤ min (proofOf H l i).length (proofOf H l j).length :=
        min_le_min hL1 hL2
      have hdvd : (2 : Nat) ^ (min (proofOf H (nextLevel H l) (i / 2)).length
            (proofOf H (nextLevel H l) (j / 2)).length)
          ∣ 2 ^ (min (proofOf H l i).length (proofOf H l j).length) :=
        pow_dvd_pow 2 hmM
      have hmod : indexFoldA H (l.getD i 0) 0 (proofOf H l i)
            % 2 ^ (min (proofOf H (nextLevel H l) (i / 2)).length
                (proofOf H (nextLevel H l) (j / 2)).length)
          = indexFoldA H (l.getD j 0) 0 (proofOf H l j)
            % 2 ^ (min (proofOf H (nextLevel H l) (i / 2)).length
                (proofOf H (nextLevel H l) (j / 2)).length) := by
        have hcg := congrArg (fun x => x
          % 2 ^ (min (proofOf H (nextLevel H l) (i / 2)).length
              (proofOf H (nextLevel H l) (j / 2)).length)) heq
        simp only at hcg
        rw [Nat.mod_mod_of_dvd _ hdvd, Nat.mod_mod_of_dvd _ hdvd] at hcg
        exact hcg
      have hstrip : ∀ (b : Nat) (L : Nat) (u : Nat),
          min (proofOf H (nextLevel H l) (i / 2)).length
              (proofOf H (nextLevel H l) (j / 2)).length ≤ L →
          (b * 2 ^ L + u) % 2 ^ (min (proofOf H (nextLevel H l) (i / 2)).length
              (proofOf H (nextLevel H l) (j / 2)).length)
            = u % 2 ^ (min (proofOf H (nextLevel H l) (i / 2)).length
              (proofOf H (nextLevel H l) (j / 2)).length) := by
        intro b L u hle
        obtain ⟨c, hc⟩ := pow_dvd_pow 2 hle
        rw [hc]
        have he : b * (2 ^ (min (proofOf H (nextLevel H l) (i / 2)).length
              (proofOf H (nextLevel H l) (j / 2)).length) * c) + u
            = 2 ^ (min (proofOf H (nextLevel H l) (i / 2)).length
              (proofOf H (nextLevel H l) (j / 2)).length) * (b * c) + u := by ring
        rw [he, Nat.mul_add_mod]
      rw [he1, he2, hstrip b1 _ _ (Nat.min_le_left _ _),
        hstrip b2 _ _ (Nat.min_le_right _ _)] at hmod
      exact hmod
termination_by l.length
decreasing_by
  simp only [nextLevel_length]; omega

/-- Adding multiples of `2 ^ L` does not change residues modulo a smaller
power of two. -/
theorem strip_top_mod (b L u m : Nat) (hle : m ≤ L) :
    (b * 2 ^ L + u) % 2 ^ m = u % 2 ^ m := by
  obtain ⟨c, hc⟩ := pow_dvd_pow 2 hle
  rw [hc]
  have he : b * (2 ^ m * c) + u = 2 ^ m * (b * c) + u := by ring
  rw [he, Nat.mul_add_mod]

/-- Index distinctness at the `getProof` interface: two distinct leaf values
of a collision-free tree receive verifier indices that differ even modulo
`2 ^` the shorter proof length. -/
theorem mtProofFor_index_mod_ne (leaves : List Nat) (x y : Nat)
    (hx : x ∈ leaves) (hy : y ∈ leaves) (hxy : x ≠ y)
    (hln : levelsNodup H (sortLvs leaves) = true) :
    indexFoldA H x 0 (mtProofFor H leaves x)
        % 2 ^ (min (mtProofFor H leaves x).length (mtProofFor H leaves y).length)
      ≠ indexFoldA H y 0 (mtProofFor H leaves y)
        % 2 ^ (min (mtProofFor H leaves x).length (mtProofFor H leaves y).length) := by
  have hmx : x ∈ sortLvs leaves := mem_sortLvs hx
  have hmy : y ∈ sortLvs leaves := mem_sortLvs hy
  have hix : (sortLvs leaves).indexOf x < (sortLvs leaves).length :=
    List.indexOf_lt_length.mpr hmx
  have hiy : (sortLvs leaves).indexOf y < (sortLvs leaves).length :=
    List.indexOf_lt_length.mpr hmy
  have hgx : (sortLvs leaves).getD ((sortLvs leaves).indexOf x) 0 = x := by
    rw [List.getD_eq_getElem _ _ hix]
    exact List.getElem_indexOf hix
  have hgy : (sortLvs leaves).getD ((sortLvs leaves).indexOf y) 0 = y := by
    rw [List.getD_eq_getElem _ _ hiy]
    exact List.getElem_indexOf hiy
  have hij : (sortLvs leaves).indexOf x ≠ (sortLvs leaves).indexOf y := by
    intro he
    apply hxy
    rw [← hgx, ← hgy, he]
  have hmain := treeIndex_mod_ne H (sortLvs leaves)
    ((sortLvs leaves).indexOf x) ((sortLvs leaves).indexOf y) hix hiy hij hln
  rw [hgx, hgy] at hmain
  exact hmain

/-- Index distinctness, plain form. -/
theorem mtProofFor_index_ne (leaves : List Nat) (x y : Nat)
    (hx : x ∈ leaves) (hy : y ∈ leaves) (hxy : x ≠ y)
    (hln : levelsNodup H (sortLvs leaves) = true) :
    indexFoldA H x 0 (mtProofFor H leaves x)
      ≠ indexFoldA H y 0 (mtProofFor H leaves y) := by
  intro he
  exact mtProofFor_index_mod_ne H leaves x y hx hy hxy hln (by rw [he])

/-- Inversion of a successful `claimTokens` call: the proof verified, the
bit was clear, and the successor state's bitmap is the old one with exactly
the verified index set (`merkleRoot` and all other bits untouched). -/
theorem claimTokens_ok_inv (st st2 : AirdropState) (caller recipient : Addr)
    (amount : Nat) (proof : List Nat)
    (hok : claimTokens H LH st caller recipient amount proof = Except.ok st2) :
    (MerkleVerify H proof st.merkleRoot (LH recipient amount)).1 = true ∧
    st.claimed (MerkleVerify H proof st.merkleRoot (LH recipient amount)).2 = false ∧
    (∀ j, st2.claimed j =
      if j = (MerkleVerify H proof st.merkleRoot (LH recipient amount)).2
      then true else st.claimed j) := by
  unfold claimTokens at hok
  by_cases hv : (MerkleVerify H proof st.merkleRoot (LH recipient amount)).1
  · simp only [hv, Bool.not_true, if_false, ite_false] at hok
    by_cases hcl : isClaimed st (MerkleVerify H proof st.merkleRoot (LH recipient amount)).2
    · simp [hcl] at hok
    · simp only [hcl, if_false, ite_false] at hok
      refine ⟨hv, by simpa [isClaimed] using hcl, ?_⟩
      cases htr : transferTokens st.balances st.sender recipient amount with
      | none => rw [htr] at hok; cases hok
      | some bal =>
        rw [htr] at hok
        cases hok
        intro j
        rfl
  · simp [hv] at hok

/-- `setMerkleRoot` never touches the claim bitmap. -/
theorem setMerkleRoot_claimed (st st2 : AirdropState) (caller : Addr)
    (newRoot : Nat)
    (hok : setMerkleRoot st caller newRoot = Except.ok st2) :
    ∀ j, st2.claimed j = st.claimed j := by
  unfold setMerkleRoot at hok
  by_cases hc : caller = st.owner
  · by_cases hz : st.merkleRoot = 0
    · simp only [hc, ne_eq, not_true_eq_false, if_false, ite_not, hz,
        if_pos rfl] at hok
      cases hok
      intro j
      rfl
    · simp [hc, hz] at hok
  · simp [hc] at hok

/-- C5: one global index space and one-shot bits. Distinctness: for a build
over a duplicate-free entry list in which every level of the first entry's
shard tree and of the root tree is collision-free, two entries with distinct
addresses receive distinct bitmap indices, as recomputed by `getIndex` from
their `getProof` proofs. Bit lifecycle: a successful claim requires its
index's bit to be 0, sets exactly that bit to 1 leaving every other bit
unchanged, no successful claim ever clears a set bit, and `setMerkleRoot`
never touches the bitmap — so each bit goes 0 → 1 exactly once, on the
first successful claim for its index. -/
theorem claim5_global_index (H : Nat → Nat → Nat) (LH : Addr → Nat → Nat)
    (n : Nat) (entries : List (Addr × Entry)) (a1 a2 : Addr) (e1 e2 : Entry)
    (p1 p2 : List Nat)
    (hnd : (entries.map Prod.fst).Nodup)
    (hm1 : (a1, e1) ∈ entries) (hm2 : (a2, e2) ∈ entries) (hne : a1 ≠ a2)
    (hln1 : levelsNodup H
      (sortLvs ((bucket n entries (shardIdOf n a1)).map (leafEntryHash LH))) = true)
    (hlnr : levelsNodup H (sortLvs (rootLeavesOf H LH n entries)) = true)
    (h1 : (proverGetProof H LH
        (fromFiles (build H LH n entries).1 (build H LH n entries).2) a1).1
      = Except.ok (e1, p1))
    (h2 : (proverGetProof H LH
        (fromFiles (build H LH n entries).1 (build H LH n entries).2) a2).1
      = Except.ok (e2, p2)) :
    getIndex H LH a1 e1.balance p1 ≠ getIndex H LH a2 e2.balance p2 ∧
    (∀ st st2 caller recipient amount proof,
      claimTokens H LH st caller recipient amount proof = Except.ok st2 →
      st.claimed (MerkleVerify H proof st.merkleRoot (LH recipient amount)).2 = false ∧
      st2.claimed (MerkleVerify H proof st.merkleRoot (LH recipient amount)).2 = true ∧
      (∀ ix, ix ≠ (MerkleVerify H proof st.merkleRoot (LH recipient amount)).2 →
        st2.claimed ix = st.claimed ix) ∧
      (∀ ix, st.claimed ix = true → st2.claimed ix = true)) ∧
    (∀ st st2 caller newRoot,
      setMerkleRoot st caller newRoot = Except.ok st2 →
      ∀ ix, st2.claimed ix = st.claimed ix) := by
  refine ⟨?_, ?_, fun st st2 caller newRoot hok => setMerkleRoot_claimed st st2 caller newRoot hok⟩
  · -- index distinctness
    rw [proverGetProof_build H LH n entries a1 e1 hnd hm1] at h1
    rw [proverGetProof_build H LH n entries a2 e2 hnd hm2] at h2
    injection h1 with h1
    injection h2 with h2
    have hp1 := (congrArg Prod.snd h1).symm
    have hp2 := (congrArg Prod.snd h2).symm
    simp only at hp1 hp2
    have hleaf1mem : LH a1 e1.balance
        ∈ (bucket n entries (shardIdOf n a1)).map (leafEntryHash LH) :=
      List.mem_map.mpr ⟨(a1, e1), mem_bucket_of_mem n hm1, rfl⟩
    have hleaf2mem : LH a2 e2.balance
        ∈ (bucket n entries (shardIdOf n a2)).map (leafEntryHash LH) :=
      List.mem_map.mpr ⟨(a2, e2), mem_bucket_of_mem n hm2, rfl⟩
    have hr1mem : mtRoot H ((bucket n entries (shardIdOf n a1)).map (leafEntryHash LH))
        ∈ rootLeavesOf H LH n entries :=
      List.mem_map.mpr ⟨shardIdOf n a1, mem_shardKeys_of_mem n hm1, rfl⟩
    have hr2mem : mtRoot H ((bucket n entries (shardIdOf n a2)).map (leafEntryHash LH))
        ∈ rootLeavesOf H LH n entries :=
      List.mem_map.mpr ⟨shardIdOf n a2, mem_shardKeys_of_mem n hm2, rfl⟩
    have hfold1 : hashFold H (LH a1 e1.balance)
        (mtProofFor H ((bucket n entries (shardIdOf n a1)).map (leafEntryHash LH))
          (LH a1 e1.balance))
        = mtRoot H ((bucket n entries (shardIdOf n a1)).map (leafEntryHash LH)) :=
      hashFold_mtProofFor H hleaf1mem
    have hfold2 : hashFold H (LH a2 e2.balance)
        (mtProofFor H ((bucket n entries (shardIdOf n a2)).map (leafEntryHash LH))
          (LH a2 e2.balance))
        = mtRoot H ((bucket n entries (shardIdOf n a2)).map (leafEntryHash LH)) :=
      hashFold_mtProofFor H hleaf2mem
    rw [hp1, hp2]
    unfold getIndex
    rw [indexFoldA_append, indexFoldA_append, hfold1, hfold2]
    rw [indexFoldA_linear H
        (mtProofFor H (rootLeavesOf H LH n entries)
          (mtRoot H ((bucket n entries (shardIdOf n a1)).map (leafEntryHash LH)))),
      indexFoldA_linear H
        (mtProofFor H (rootLeavesOf H LH n entries)
          (mtRoot H ((bucket n entries (shardIdOf n a2)).map (leafEntryHash LH))))]
    by_cases hss : shardIdOf n a1 = shardIdOf n a2
    · -- same shard: same root-tree tail, shard-level indices differ
      have hlv : ((bucket n entries (shardIdOf n a1)).map (leafEntryHash LH)).Nodup := by
        have := levelsNodup_nodup H hln1
        exact ((List.perm_insertionSort (· ≤ ·) _).nodup_iff).mp this
      have hleafne : LH a1 e1.balance ≠ LH a2 e2.balance := by
        intro heql
        have hinj := List.inj_on_of_nodup_map hlv
        have hm2' : (a2, e2) ∈ bucket n entries (shardIdOf n a1) := by
          rw [hss]; exact mem_bucket_of_mem n hm2
        have := hinj (mem_bucket_of_mem n hm1) hm2' heql
        exact hne (congrArg Prod.fst this)
      rw [hss]
      have hidx := mtProofFor_index_ne H
        ((bucket n entries (shardIdOf n a2)).map (leafEntryHash LH))
        (LH a1 e1.balance) (LH a2 e2.balance)
        (hss ▸ hleaf1mem) hleaf2mem hleafne (hss ▸ hln1)
      intro heq
      apply hidx
      have := Nat.add_right_cancel heq
      exact Nat.eq_of_mul_eq_mul_right
        (Nat.pos_pow_of_pos _ (by omega)) this
    · -- different shards: root-tree indices differ even mod the shorter path
      have hrl : (rootLeavesOf H LH n entries).Nodup := by
        have := levelsNodup_nodup H hlnr
        exact ((List.perm_insertionSort (· ≤ ·) _).nodup_iff).mp this
      have hrne : mtRoot H ((bucket n entries (shardIdOf n a1)).map (leafEntryHash LH))
          ≠ mtRoot H ((bucket n entries (shardIdOf n a2)).map (leafEntryHash LH)) := by
        intro heqr
        have hinj := List.inj_on_of_nodup_map
          (l := shardKeys n entries)
          (f := fun k => mtRoot H ((bucket n entries k).map (leafEntryHash LH)))
          hrl
        exact hss (hinj (mem_shardKeys_of_mem n hm1)
          (mem_shardKeys_of_mem n hm2) heqr)
      have hidx := mtProofFor_index_mod_ne H (rootLeavesOf H LH n entries)
        (mtRoot H ((bucket n entries (shardIdOf n a1)).map (leafEntryHash LH)))
        (mtRoot H ((bucket n entries (shardIdOf n a2)).map (leafEntryHash LH)))
        hr1mem hr2mem hrne hlnr
      intro heq
      apply hidx
      have hcg := congrArg (fun x => x % 2 ^ (min
        (mtProofFor H (rootLeavesOf H LH n entries)
          (mtRoot H ((bucket n entries (shardIdOf n a1)).map (leafEntryHash LH)))).length
        (mtProofFor H (rootLeavesOf H LH n entries)
          (mtRoot H ((bucket n entries (shardIdOf n a2)).map (leafEntryHash LH)))).length)) heq
      simp only at hcg
      rw [strip_top_mod _ _ _ _ (Nat.min_le_left _ _),
        strip_top_mod _ _ _ _ (Nat.min_le_right _ _)] at hcg
      exact hcg
  · intro st st2 caller recipient amount proof hok
    obtain ⟨hv, hbit, hclaimed⟩ :=
      claimTokens_ok_inv H LH st st2 caller recipient amount proof hok
    refine ⟨hbit, by rw [hclaimed]; simp, ?_, ?_⟩
    · intro ix hix
      rw [hclaimed ix, if_neg hix]
    · intro ix hset
      rw [hclaimed ix]
      by_cases hix : ix = (MerkleVerify H proof st.merkleRoot (LH recipient amount)).2
      · simp [hix]
      · simp [hix, hset]

/-- Witness for C5 at a concrete two-shard build: the two entries' proofs
produce distinct indices, and the bitmap lifecycle facts hold. -/
theorem claim5_global_index_witness :
    getIndex cH cLH ['a'] 1 [cLH ['b'] 2] ≠ getIndex cH cLH ['b'] 2 [cLH ['a'] 1] ∧
    (∀ st st2 caller recipient amount proof,
      claimTokens cH cLH st caller recipient amount proof = Except.ok st2 →
      st.claimed (MerkleVerify cH proof st.merkleRoot (cLH recipient amount)).2 = false ∧
      st2.claimed (MerkleVerify cH proof st.merkleRoot (cLH recipient amount)).2 = true ∧
      (∀ ix, ix ≠ (MerkleVerify cH proof st.merkleRoot (cLH recipient amount)).2 →
        st2.claimed ix = st.claimed ix) ∧
      (∀ ix, st.claimed ix = true → st2.claimed ix = true)) ∧
    (∀ st st2 caller newRoot,
      setMerkleRoot st caller newRoot = Except.ok st2 →
      ∀ ix, st2.claimed ix = st.claimed ix) :=
  claim5_global_index cH cLH 1 [(['a'], Entry.mk 1), (['b'], Entry.mk 2)]
    ['a'] ['b'] (Entry.mk 1) (Entry.mk 2) [cLH ['b'] 2] [cLH ['a'] 1]
    (by decide) (by decide) (by decide) (by decide)
    (by decide) (by decide) (by decide) (by decide)

end Theorems

end EnsAirdrop
